import Mathlib

/-!
# Struct-field layout optimiser (package `tetris`)

A shallow embedding of `tetris/tetris.go` and theorems about it.

Conventions of the embedding.

* A Go `string` is a Lean `String`.  The code looks at a string only through
  `strings.Split(_, " ")`, `len(_) == 0`, `len(_) <= 1`, `len(_) > 1`, a
  comparison of the first byte with `'*'` and map lookup; on UTF-8 text these
  give the same answers on bytes and on code points.
* A Go slice of strings is a `List String`.
* A Go function that can stop with a run-time panic (index out of range,
  `make` with a length above the capacity) returns `Run α`; `Run.panic` is the
  panic, `Run.noFuel` says that the recursion budget of the model ran out.
* Go `int` values stay far below `2 ^ 31` in every function modelled here
  (sizes are at most 16, slices hold at most 6 fields, the sentinel is
  `100000`), so they are natural numbers, or integers where the code can make
  them negative.
-/

namespace Tetris

/-! ## Results of Go calls -/

/-- Outcome of running a Go function in the model. -/
inductive Run (α : Type) where
  | ok (a : α) : Run α
  | panic : Run α
  | noFuel : Run α
  deriving DecidableEq, Repr

/-- Sequencing of two runs: the first panic or exhausted budget wins. -/
def Run.bind {α β : Type} (r : Run α) (f : α → Run β) : Run β :=
  match r with
  | Run.ok a => f a
  | Run.panic => Run.panic
  | Run.noFuel => Run.noFuel

/-! ## Type catalog -/

/-- Go: `const wordSize = int(unsafe.Sizeof(int(0)))`, on a 64-bit target. -/
def wordSize : Nat := 8

/-- Go: the literal of `var types = map[string]int{...}`, entry by entry. -/
def typesTable : List (String × Nat) :=
  [("int8", 1), ("int16", 2), ("int32", 4), ("int64", 8), ("int", wordSize),
   ("uint8", 1), ("uint16", 2), ("uint32", 4), ("uint64", 8), ("uint", wordSize),
   ("float32", 4), ("float64", 8), ("complex64", 8), ("complex128", 16), ("byte", 1),
   ("rune", 4), ("uintptr", wordSize), ("string", 2 * wordSize)]

/-- Go: the map lookup `types[typeName]`; `none` is an absent key.  The keys
of the literal are pairwise distinct. -/
def types (typeName : String) : Option Nat :=
  typesTable.lookup typeName

/-! ## `strings.Split(s, " ")` -/

/-- Pieces of a character list between single spaces; the empty list gives
one empty piece, as `strings.Split("", " ")` gives `[""]`. -/
def splitSpace : List Char → List (List Char)
  | [] => [[]]
  | c :: cs =>
    if c = ' ' then [] :: splitSpace cs
    else
      match splitSpace cs with
      | p :: ps => (c :: p) :: ps
      | [] => [[c]]

/-- Go: `strings.Split(s, " ")`. -/
def goSplit (s : String) : List String :=
  (splitSpace s.data).map String.mk

/-! ## Validation -/

/-- The four errors `checkFields` builds with `fmt.Errorf`. -/
inductive FieldError where
  /-- Message "please delete empty line in the struct body". -/
  | emptyLine : FieldError
  /-- Message "invalid field in the struct body %s", with the line. -/
  | invalidField (field : String) : FieldError
  /-- Message "invalid type '*'". -/
  | invalidStar : FieldError
  /-- Message "could not recognize type %s", with the type name. -/
  | unknownType (typeName : String) : FieldError
  deriving DecidableEq, Repr

/-- The checks of one iteration of the loop of `checkFields`:
`Run.ok none` when the loop goes on to the next line, `Run.ok (some e)` when it
returns the error `e`, `Run.panic` when `typeName[0]` is out of range. -/
def checkField (field : String) : Run (Option FieldError) :=
  if field.data.length = 0 then Run.ok (some FieldError.emptyLine)
  else if (goSplit field).length < 2 then Run.ok (some (FieldError.invalidField field))
  else
    match (goSplit field)[1]? with
    | none => Run.panic
    | some typeName =>
      match typeName.data with
      | [] => Run.panic
      | c :: rest =>
        if c = '*' ∧ (c :: rest).length ≤ 1 then Run.ok (some FieldError.invalidStar)
        else if (types typeName).isNone ∧ c ≠ '*' then
          Run.ok (some (FieldError.unknownType typeName))
        else Run.ok none

/-- Go: `checkFields`.  `Run.ok none` is the `nil` error. -/
def checkFields : List String → Run (Option FieldError)
  | [] => Run.ok none
  | field :: rest =>
    match checkField field with
    | Run.ok none => checkFields rest
    | r => r

/-! ## Sizes and layout -/

/-- Go: `getSize`.  Panics when the line has no second piece or the second
piece is empty; an unknown type name has the map's zero value as size. -/
def getSize (field : String) : Run Nat :=
  match (goSplit field)[1]? with
  | none => Run.panic
  | some typeName =>
    match typeName.data with
    | [] => Run.panic
    | c :: rest =>
      if c = '*' ∧ (c :: rest).length > 1 then Run.ok wordSize
      else Run.ok ((types typeName).getD 0)

/-- Go: the loop `for i, field := range fields { sizes[i] = getSize(field) }`. -/
def getSizes : List String → Run (List Nat)
  | [] => Run.ok []
  | field :: rest =>
    (getSize field).bind fun size => (getSizes rest).bind fun sizes => Run.ok (size :: sizes)

/-- Local variables of the second loop of `calculateMemory`. -/
structure Layout where
  capMul : Nat
  cap : Nat
  mem : Nat
  deriving DecidableEq, Repr

/-- The `switch size` statement: new values of `capMul` and `mem`. -/
def placeField (capMul mem size : Nat) : Nat × Nat :=
  if size = 1 then (capMul, mem + 1)
  else if size = 2 then
    (if capMul < 2 then 2 else capMul, mem + (mem % 2 + 2))
  else if size = 4 then
    (if capMul < 4 then 4 else capMul, if mem % 4 = 0 then mem + 4 else mem + (8 - mem % 4))
  else if size = 8 then
    (if capMul < 8 then 8 else capMul, if mem % 8 = 0 then mem + 8 else mem + (16 - mem % 8))
  else if size = 16 then
    (if capMul < 8 then 8 else capMul, if mem % 8 = 0 then mem + 16 else mem + (24 - mem % 8))
  else (capMul, mem)

/-- One iteration of the second loop of `calculateMemory`. -/
def layoutStep (st : Layout) (size : Nat) : Layout :=
  let p := placeField st.capMul st.mem size
  let capMul := p.1
  let mem := p.2
  let cap :=
    if mem > st.cap then
      if mem % capMul = 0 then mem else (mem / capMul + 1) * capMul
    else st.cap
  { capMul := capMul, cap := cap, mem := mem }

/-- The second loop of `calculateMemory`, from the given local variables. -/
def layoutLoop (st : Layout) (sizes : List Nat) : Layout :=
  sizes.foldl layoutStep st

/-- Go: `calculateMemory`.  `make([]int, len(fields), 6)` panics when there
are more than 6 fields. -/
def calculateMemory (fields : List String) : Run Nat :=
  if fields.length > 6 then Run.panic
  else
    (getSizes fields).bind fun sizes =>
      Run.ok (layoutLoop { capMul := 1, cap := 0, mem := 0 } sizes).cap

/-! ## Greedy ordering -/

/-- The inner loop of the insertion sort of Go's `sort` package,
`for j := i; j > a && less(j, j-1); j-- { swap(j, j-1) }`, with
`less(i, j) = getSize(fields[i]) > getSize(fields[j])`.  The already sorted part
left of the moving element `x` is given from right to left, and so is the
result. -/
def sinkLeft (x : String) : List String → Run (List String)
  | [] => Run.ok [x]
  | y :: ys =>
    (getSize x).bind fun sx =>
      (getSize y).bind fun sy =>
        if sx > sy then (sinkLeft x ys).bind fun r => Run.ok (y :: r)
        else Run.ok (x :: y :: ys)

/-- The outer loop of the insertion sort, `for i := a + 1; i < b; i++`: the
sorted part (from right to left) and the elements still to insert. -/
def insertionLoop (sortedRev : List String) : List String → Run (List String)
  | [] => Run.ok sortedRev.reverse
  | x :: xs => (sinkLeft x sortedRev).bind fun p => insertionLoop p xs

/-- Go: the routine `insertionSortLessFunc` of the `sort` package
(`insertionSort_func` before Go 1.19) on a whole slice, with
`less(i, j) = getSize(fields[i]) > getSize(fields[j])`. -/
def insertionSort : List String → Run (List String)
  | [] => Run.ok []
  | x :: xs => insertionLoop [x] xs

/-- Go: `solveTetris`, that is `sort.Slice(fields, less)` with
`less(i, j) = getSize(fields[i]) > getSize(fields[j])`, followed by
`return fields`.  On a slice of at most 6 elements every release of the
library sorts by straight insertion (since Go 1.19 up to 12 elements, before
that after a gap-6 pass that is empty for at most 6 elements).  What the
library does on a longer slice depends on the release and is not part of the
repository: it is the parameter `sortLong`. -/
def solveTetris (sortLong : List String → Run (List String)) (fields : List String) :
    Run (List String) :=
  if fields.length ≤ 6 then insertionSort fields else sortLong fields

/-! ## Exhaustive search -/

/-- The slices `best` and `min` of `solveTetrisBruteForce`. -/
structure Top3 where
  best0 : List String
  best1 : List String
  best2 : List String
  min0 : Nat
  min1 : Nat
  min2 : Nat
  deriving DecidableEq, Repr

/-- The values of `best` and `min` after the initialising loop: three slices
of `n` empty strings and the sentinel `100000`. -/
def initTop3 (n : Nat) : Top3 :=
  { best0 := List.replicate n "", best1 := List.replicate n "", best2 := List.replicate n "",
    min0 := 100000, min1 := 100000, min2 := 100000 }

/-- The branch `k == 1` of `generate`: "updating min and best structs". -/
def record (st : Top3) (s : List String) : Run Top3 :=
  (calculateMemory s).bind fun memory =>
    if memory < st.min0 then
      Run.ok { best2 := st.best1, best1 := st.best0, min2 := st.min1, min1 := st.min0,
               min0 := memory, best0 := s }
    else if memory < st.min1 then
      Run.ok { st with best2 := st.best1, min2 := st.min1, min1 := memory, best1 := s }
    else if memory < st.min2 then
      Run.ok { st with min2 := memory, best2 := s }
    else Run.ok st

/-- Go: `s[i], s[j] = s[j], s[i]`; an index out of range panics. -/
def swapAt (s : List String) (i j : Nat) : Run (List String) :=
  match s.get? i, s.get? j with
  | some a, some b => Run.ok ((s.set i b).set j a)
  | _, _ => Run.panic

/-- A loop `for i := from; i < from + n; i++ { body }` threading a state. -/
def forRange {σ : Type} (body : Nat → σ → Run σ) : Nat → Nat → σ → Run σ
  | _, 0, st => Run.ok st
  | i, n + 1, st => (body i st).bind fun st' => forRange body (i + 1) n st'

/-- Go: the closure `generate` of `solveTetrisBruteForce` (Heap's algorithm),
on the working slice and the captured `best` and `min`.  The first argument
bounds the depth of the recursion; `k` is a Go `int`. -/
def generate : Nat → Int → List String × Top3 → Run (List String × Top3)
  | 0, _, _ => Run.noFuel
  | fuel + 1, k, (s, st) =>
    if k = 1 then (record st s).bind fun st' => Run.ok (s, st')
    else
      (generate fuel (k - 1) (s, st)).bind fun p =>
        forRange (fun i (q : List String × Top3) =>
          (swapAt q.1 (if k % 2 = 0 then i else 0) (k - 1).toNat).bind fun s' =>
            generate fuel (k - 1) (s', q.2)) 0 (k - 1).toNat p

/-- Go: `solveTetrisBruteForce`; the result is the slice `best`. -/
def solveTetrisBruteForce (fuel : Nat) (fields : List String) : Run (List (List String)) :=
  (generate fuel (fields.length : Int) (fields, initTop3 fields.length)).bind fun p =>
    Run.ok [p.2.best0, p.2.best1, p.2.best2]

/-! ## Natural alignment, in the words of the specification -/

/-- Alignment of a size class: the size itself for 1, 2, 4 and 8, and 8 for
the 16-byte class. -/
def specAlign (size : Nat) : Nat :=
  if size = 16 then 8 else size

/-- The offset `off` raised to a multiple of `a`. -/
def alignUp (off a : Nat) : Nat :=
  if off % a = 0 then off else off + (a - off % a)

/-- Placing one field: the offset after the field and the largest alignment
seen. -/
def specPlace (p : Nat × Nat) (size : Nat) : Nat × Nat :=
  (alignUp p.1 (specAlign size) + size, max p.2 (specAlign size))

/-- Natural-alignment size of a struct whose fields have the given sizes. -/
def specSize (sizes : List Nat) : Nat :=
  alignUp (sizes.foldl specPlace (0, 1)).1 (sizes.foldl specPlace (0, 1)).2

/-- Largest alignment requirement among fields of the given sizes,
`min size 8` for each field. -/
def maxAlign (sizes : List Nat) : Nat :=
  (sizes.map fun size => min size 8).foldr max 0

/-- The size classes of the type catalog. -/
def SizeClass (size : Nat) : Prop :=
  size = 1 ∨ size = 2 ∨ size = 4 ∨ size = 8 ∨ size = 16

/-! ## Auxiliary definitions for the proofs -/

/-- Size of a field, 0 where `getSize` does not return. -/
def fieldSize (field : String) : Nat :=
  match getSize field with
  | Run.ok size => size
  | _ => 0

/-- The swap `s[i], s[j] = s[j], s[i]` on any element type, the identity when
an index is out of range. -/
def swapPure {α : Type} (s : List α) (i j : Nat) : List α :=
  match s.get? i, s.get? j with
  | some a, some b => (s.set i b).set j a
  | _, _ => s

/-- The `for` loop of `generate(k, s)` from iteration `i` on, `n` iterations:
the arrangements visited, in order, and the slice at the end.  `gen` stands
for `generate(k-1, _)`. -/
def heapLoop {α : Type} (gen : List α → List (List α) × List α) (k : Nat) :
    Nat → Nat → List α → List (List α) × List α
  | _, 0, s => ([], s)
  | i, n + 1, s =>
    let r := gen (swapPure s (if k % 2 = 0 then i else 0) (k - 1))
    let r2 := heapLoop gen k (i + 1) n r.2
    (r.1 ++ r2.1, r2.2)

/-- The arrangements on which `generate(m + 1, s)` reaches its branch
`k == 1`, in order, and the slice at the end. -/
def heapGen {α : Type} : Nat → List α → List (List α) × List α
  | 0, s => ([s], s)
  | m + 1, s =>
    let r := heapGen m s
    let r2 := heapLoop (heapGen m) (m + 2) 0 (m + 1) r.2
    (r.1 ++ r2.1, r2.2)

/-- The branch `k == 1` of `generate` run on a list of arrangements in turn. -/
def recordAll (st : Top3) : List (List String) → Run Top3
  | [] => Run.ok st
  | s :: rest => (record st s).bind fun st' => recordAll st' rest

/-- Base-8 code of a list of small numbers, first element lowest. -/
def permCode : List Nat → Nat
  | [] => 0
  | x :: xs => x + 8 * permCode xs

/-- Bit set of the codes of the given lists. -/
def codeMask : List (List Nat) → Nat
  | [] => 0
  | q :: qs => (1 <<< permCode q) ||| codeMask qs

/-- Whether the code of every list in `qs` is in the bit set `mask`. -/
def covered (mask : Nat) : List (List Nat) → Bool
  | [] => true
  | q :: qs => Nat.testBit mask (permCode q) && covered mask qs

/-- A slot of `best` and `min` that holds an ordering of the fields and its
computed size. -/
def Filled (fields best : List String) (min : Nat) : Prop :=
  best.Perm fields ∧ calculateMemory best = Run.ok min

/-- Invariant of `best` and `min` after the branch `k == 1` of `generate` has
run on the arrangements `seen`. -/
structure TopInv (fields : List String) (seen : List (List String)) (st : Top3) : Prop where
  le01 : st.min0 ≤ st.min1
  le12 : st.min1 ≤ st.min2
  slot0 : st.min0 = 100000 ∨ Filled fields st.best0 st.min0
  slot1 : st.min1 = 100000 ∨ Filled fields st.best1 st.min1
  slot2 : st.min2 = 100000 ∨ Filled fields st.best2 st.min2
  first : 1 ≤ seen.length → Filled fields st.best0 st.min0
  second : 2 ≤ seen.length → Filled fields st.best1 st.min1
  third : 3 ≤ seen.length → Filled fields st.best2 st.min2
  least : ∀ p ∈ seen, ∃ m, calculateMemory p = Run.ok m ∧ st.min0 ≤ m

/-- Value of `calculateMemory` on an ordering, 0 where it does not return. -/
def memOf (p : List String) : Nat :=
  match calculateMemory p with
  | Run.ok m => m
  | _ => 0

/-- Invariant of `min` after the branch `k == 1` of `generate` has run on the
arrangements `seen`: `min` holds, in ascending order, the three smallest of
the sizes seen so far and the three sentinels. -/
def SmallestInv (seen : List (List String)) (st : Top3) : Prop :=
  ∃ rest, (seen.map memOf ++ [100000, 100000, 100000]).Perm
      (st.min0 :: st.min1 :: st.min2 :: rest) ∧
    st.min0 ≤ st.min1 ∧ st.min1 ≤ st.min2 ∧ ∀ x ∈ rest, st.min2 ≤ x

/-- Invariant of `best[0]` after the branch `k == 1` of `generate` has run on
the arrangements `seen`: `best[0]` is the first arrangement seen that has the
least size seen so far. -/
def FirstInv (seen : List (List String)) (st : Top3) : Prop :=
  (seen = [] ∧ st.min0 = 100000) ∨
    ∃ pre post, seen = pre ++ st.best0 :: post ∧
      calculateMemory st.best0 = Run.ok st.min0 ∧
      (∀ p ∈ pre, st.min0 < memOf p) ∧ (∀ p ∈ post, st.min0 ≤ memOf p)

/-- A type name that is a key of the type catalog, or starts with `'*'` and
has at least one further character. -/
def Recognised (typeName : String) : Prop :=
  (types typeName).isSome ∨ (typeName.data.head? = some '*' ∧ 1 < typeName.data.length)

instance (typeName : String) : Decidable (Recognised typeName) := by
  unfold Recognised; infer_instance

/-- The second piece of a line split at single spaces, `""` when there is
none. -/
def secondPiece (line : String) : String :=
  ((goSplit line)[1]?).getD ""

/-- A line that validation does not let through, in the words of the
specification: empty, without a space, or with a second piece that is not a
recognised type name. -/
def Offending (line : String) : Prop :=
  line = "" ∨ ' ' ∉ line.data ∨ ¬ Recognised (secondPiece line)

/-- The error that belongs to an offending line. -/
def errorKind (line : String) : FieldError :=
  if line = "" then FieldError.emptyLine
  else if ' ' ∉ line.data then FieldError.invalidField line
  else if secondPiece line = "*" then FieldError.invalidStar
  else FieldError.unknownType (secondPiece line)

instance (size : Nat) : Decidable (SizeClass size) := by
  unfold SizeClass; infer_instance

/-- Invariant of the layout loop: `capMul` is a power of two up to 8 and `cap`
is `mem` raised to a multiple of `capMul`. -/
def LayoutInv (st : Layout) : Prop :=
  (st.capMul = 1 ∨ st.capMul = 2 ∨ st.capMul = 4 ∨ st.capMul = 8) ∧
    st.cap = alignUp st.mem st.capMul

end Tetris

/-!
# Word frequencies (package `topWords`)

A shallow embedding of `topWords/topWords.go`.

* The regular expression engine of the Go library is not part of the
  repository; `findAllWords` gives the matches of the one pattern the code
  compiles, `\b[a-zA-Z]+\b`.
* The Go map `frequency` is a list of key-count pairs with pairwise distinct
  keys.  Go does not fix the order in which `for word := range frequency`
  visits the keys; the order used in the `i`-th pass is given by a parameter
  `order`, which may return any rearrangement of the map.
-/

namespace topWords

/-- The class `\w` of the Go library: ASCII letters, digits and `_`. -/
def isWordChar (c : Char) : Bool :=
  c.isAlphanum || c == '_'

/-- The maximal runs of `\w` characters of a text, left to right; `cur` is
the run under construction, last character first. -/
def wordRunsAux : List Char → List Char → List (List Char)
  | [], cur => if cur = [] then [] else [cur.reverse]
  | c :: cs, cur =>
    if isWordChar c then wordRunsAux cs (c :: cur)
    else if cur = [] then wordRunsAux cs []
    else cur.reverse :: wordRunsAux cs []

/-- Go: `exp.FindAllString(s, -1)` for `exp = \b[a-zA-Z]+\b`.  An ASCII word
boundary `\b` stands between a `\w` character and a character that is not
`\w` (or an end of the text), so a match is a maximal run of `\w` characters
that consists of letters only: inside a run there is no boundary, and a run
with a digit or `_` has no boundary next to its letters on one side. -/
def findAllWords (s : String) : List String :=
  ((wordRunsAux s.data []).filter fun run => run.all Char.isAlpha).map String.mk

/-- Go: `strings.ToLower(word)` on a word of ASCII letters. -/
def toLower (word : String) : String :=
  String.mk (word.data.map Char.toLower)

/-- Go: `frequency[word]++`. -/
def bump : List (String × Nat) → String → List (String × Nat)
  | [], word => [(word, 1)]
  | (key, count) :: rest, word =>
    if key = word then (key, count + 1) :: rest else (key, count) :: bump rest word

/-- Go: the loop that fills `frequency`. -/
def buildFrequency (words : List String) : List (String × Nat) :=
  words.foldl (fun frequency word => bump frequency (toLower word)) []

/-- Go: the inner loop `for word := range frequency`, on the entries in the
order of the pass: the values of `max` and `topWord` at its end. -/
def pickMax (pass : List (String × Nat)) : Nat × String :=
  pass.foldl (fun acc entry => if acc.1 < entry.2 then (entry.2, entry.1) else acc) (0, "")

/-- Go: `delete(frequency, topWord)`. -/
def deleteKey (frequency : List (String × Nat)) (topWord : String) : List (String × Nat) :=
  frequency.filter fun entry => decide (entry.1 ≠ topWord)

/-- Go: the outer loop `for i := 0; i < n; i++`, from pass `i` on with
`remaining` passes to go. -/
def selectLoop (order : Nat → List (String × Nat) → List (String × Nat)) :
    Nat → Nat → List (String × Nat) → List String → List String
  | _, 0, _, words => words
  | i, remaining + 1, frequency, words =>
    let topWord := (pickMax (order i frequency)).2
    selectLoop order (i + 1) remaining (deleteKey frequency topWord) (words ++ [topWord])

/-- Go: `TopWords`. -/
def TopWords (order : Nat → List (String × Nat) → List (String × Nat)) (s : String)
    (n : Int) : List String :=
  if n ≤ 0 then []
  else
    let frequency := buildFrequency (findAllWords s)
    let n := if (frequency.length : Int) < n then frequency.length else n.toNat
    selectLoop order 0 n frequency []

/-- The lower-cased matches of `\b[a-zA-Z]+\b` in `s`, in the order of the
text. -/
def lowerWords (s : String) : List String :=
  (findAllWords s).map toLower

/-- The words of the passes `i`, `i + 1`, ... of the outer loop, first pass
first. -/
def selectFrom (order : Nat → List (String × Nat) → List (String × Nat)) :
    Nat → Nat → List (String × Nat) → List String
  | _, 0, _ => []
  | i, remaining + 1, frequency =>
    (pickMax (order i frequency)).2 ::
      selectFrom order (i + 1) remaining (deleteKey frequency (pickMax (order i frequency)).2)

/-- A map with pairwise distinct keys and positive counts. -/
def FreqOK (frequency : List (String × Nat)) : Prop :=
  (frequency.map Prod.fst).Nodup ∧ ∀ entry ∈ frequency, 1 ≤ entry.2

/-- The count stored for a key, 0 for an absent key. -/
def countOf (frequency : List (String × Nat)) (word : String) : Nat :=
  (frequency.lookup word).getD 0

end topWords

/-! # Theorems -/

namespace Tetris

/-! ## Layout calculator -/

theorem alignUp_bounds (off a : Nat) (ha : 0 < a) :
    alignUp off a % a = 0 ∧ off ≤ alignUp off a ∧ alignUp off a < off + a := by
  unfold alignUp
  have hlt : off % a < a := Nat.mod_lt _ ha
  split_ifs with h
  · exact ⟨h, le_refl _, by omega⟩
  · refine ⟨?_, by omega, by omega⟩
    have hdm : a * (off / a) + off % a = off := Nat.div_add_mod off a
    have : off + (a - off % a) = a * (off / a + 1) := by
      rw [Nat.mul_add, Nat.mul_one]; omega
    rw [this]
    exact Nat.mul_mod_right _ _

/-- The value `alignUp off a` is the smallest multiple of `a` that is at least
`off`. -/
theorem alignUp_least (off a : Nat) (ha : 0 < a) :
    off ≤ alignUp off a ∧ a ∣ alignUp off a ∧
      ∀ m, off ≤ m → a ∣ m → alignUp off a ≤ m := by
  obtain ⟨h0, h1, h2⟩ := alignUp_bounds off a ha
  refine ⟨h1, Nat.dvd_of_mod_eq_zero h0, ?_⟩
  intro m hm hdiv
  by_contra hcon
  have hlt : m < alignUp off a := by omega
  obtain ⟨c, hc⟩ := Nat.dvd_of_mod_eq_zero h0
  obtain ⟨d, hd⟩ := hdiv
  rw [hc, hd] at hlt
  have hdc : d < c := lt_of_mul_lt_mul_left hlt (Nat.zero_le a)
  have : a * (d + 1) ≤ a * c := Nat.mul_le_mul_left a hdc
  rw [Nat.mul_add, Nat.mul_one] at this
  omega

/-- The rounding of `cap` in the code is `alignUp`. -/
theorem roundUp_eq_alignUp (mem capMul : Nat) (h : 0 < capMul) :
    (if mem % capMul = 0 then mem else (mem / capMul + 1) * capMul) = alignUp mem capMul := by
  unfold alignUp
  have hlt : mem % capMul < capMul := Nat.mod_lt _ h
  have hdm : capMul * (mem / capMul) + mem % capMul = mem := Nat.div_add_mod mem capMul
  split_ifs with h0
  · rfl
  · rw [Nat.add_mul, Nat.one_mul, Nat.mul_comm]; omega

/-- The `switch` of the code places a field of a catalog size class at its
natural alignment. -/
theorem placeField_spec (capMul mem size : Nat) (hs : SizeClass size) (hc : 0 < capMul) :
    placeField capMul mem size
      = (max capMul (specAlign size), alignUp mem (specAlign size) + size) := by
  rcases hs with rfl | rfl | rfl | rfl | rfl <;>
    simp only [placeField, specAlign, alignUp, Prod.mk.injEq] <;>
    norm_num <;>
    refine ⟨?_, ?_⟩ <;> (try split_ifs) <;> omega

theorem layoutStep_spec (st : Layout) (size : Nat) (hs : SizeClass size) (hinv : LayoutInv st) :
    LayoutInv (layoutStep st size) ∧
      (layoutStep st size).mem = alignUp st.mem (specAlign size) + size ∧
      (layoutStep st size).capMul = max st.capMul (specAlign size) := by
  obtain ⟨cm, cap, mem⟩ := st
  obtain ⟨hcm, hcap⟩ := hinv
  simp only at hcm hcap
  subst hcap
  have hcm0 : 0 < cm := by rcases hcm with rfl | rfl | rfl | rfl <;> simp
  have hpos : 0 < max cm (specAlign size) := lt_of_lt_of_le hcm0 (le_max_left _ _)
  have hx := alignUp_bounds mem cm hcm0
  have hz := alignUp_bounds (alignUp mem (specAlign size) + size) _ hpos
  have hy := alignUp_bounds mem (specAlign size)
    (by rcases hs with rfl | rfl | rfl | rfl | rfl <;> simp [specAlign])
  have hcap : (if alignUp mem (specAlign size) + size > alignUp mem cm then
        alignUp (alignUp mem (specAlign size) + size) (max cm (specAlign size))
      else alignUp mem cm)
      = alignUp (alignUp mem (specAlign size) + size) (max cm (specAlign size)) := by
    generalize alignUp (alignUp mem (specAlign size) + size) (max cm (specAlign size)) = z at hz ⊢
    generalize alignUp mem (specAlign size) = y at hy hz ⊢
    generalize alignUp mem cm = x at hx ⊢
    rcases hs with rfl | rfl | rfl | rfl | rfl <;> rcases hcm with rfl | rfl | rfl | rfl <;>
      simp only [specAlign] at hy hz ⊢ <;> norm_num at hy hz ⊢ <;> omega
  have hmax : max cm (specAlign size) = 1 ∨ max cm (specAlign size) = 2 ∨
      max cm (specAlign size) = 4 ∨ max cm (specAlign size) = 8 := by
    rcases hs with rfl | rfl | rfl | rfl | rfl <;> rcases hcm with rfl | rfl | rfl | rfl <;>
      simp [specAlign]
  simp only [LayoutInv, layoutStep, placeField_spec cm mem size hs hcm0,
    roundUp_eq_alignUp _ _ hpos, and_true]
  exact ⟨hmax, hcap⟩

theorem layoutLoop_spec (sizes : List Nat) :
    ∀ st : Layout, (∀ s ∈ sizes, SizeClass s) → LayoutInv st →
      LayoutInv (layoutLoop st sizes) ∧
        ((layoutLoop st sizes).mem, (layoutLoop st sizes).capMul)
          = sizes.foldl specPlace (st.mem, st.capMul) ∧
        st.mem + sizes.sum ≤ (layoutLoop st sizes).mem ∧
        (layoutLoop st sizes).capMul = max st.capMul (maxAlign sizes) := by
  induction sizes with
  | nil =>
    intro st _ hinv
    simp [layoutLoop, maxAlign, hinv]
  | cons size rest ih =>
    intro st hcls hinv
    have hs : SizeClass size := hcls size (List.mem_cons_self _ _)
    obtain ⟨hinv1, hmem1, hcm1⟩ := layoutStep_spec st size hs hinv
    obtain ⟨h1, h2, h3, h4⟩ :=
      ih (layoutStep st size) (fun s hmem => hcls s (List.mem_cons_of_mem _ hmem)) hinv1
    have hloop : layoutLoop st (size :: rest) = layoutLoop (layoutStep st size) rest := rfl
    have hle := (alignUp_bounds st.mem (specAlign size)
      (by rcases hs with rfl | rfl | rfl | rfl | rfl <;> simp [specAlign])).2.1
    have hal : specAlign size = min size 8 := by
      rcases hs with rfl | rfl | rfl | rfl | rfl <;> simp [specAlign]
    rw [hloop]
    refine ⟨h1, ?_, ?_, ?_⟩
    · rw [h2, hmem1, hcm1]; rfl
    · rw [List.sum_cons]; omega
    · rw [h4, hcm1, hal]
      simp only [maxAlign, List.map_cons, List.foldr_cons]
      exact max_assoc _ _ _

theorem getSizes_of_forall₂ (fields : List String) (sizes : List Nat)
    (h : List.Forall₂ (fun f s => getSize f = Run.ok s ∧ SizeClass s) fields sizes) :
    getSizes fields = Run.ok sizes ∧ ∀ s ∈ sizes, SizeClass s := by
  induction h with
  | nil => exact ⟨rfl, by simp⟩
  | cons hhead _ ih =>
    refine ⟨?_, ?_⟩
    · simp [getSizes, hhead.1, ih.1, Run.bind]
    · intro s hs
      rcases List.mem_cons.mp hs with rfl | hs
      · exact hhead.2
      · exact ih.2 s hs

theorem calculateMemory_eq_loop (fields : List String) (sizes : List Nat)
    (hlen : fields.length ≤ 6) (hsz : getSizes fields = Run.ok sizes) :
    calculateMemory fields
      = Run.ok (layoutLoop { capMul := 1, cap := 0, mem := 0 } sizes).cap := by
  unfold calculateMemory
  rw [if_neg (by omega), hsz]
  rfl

theorem layoutInv_init : LayoutInv { capMul := 1, cap := 0, mem := 0 } :=
  ⟨Or.inl rfl, by simp [alignUp]⟩

/-- C1: for at most 6 fields whose sizes are all in {1, 2, 4, 8, 16},
`calculateMemory` returns the natural-alignment struct size: every field is
placed at the smallest multiple of its alignment that is not below the
current offset, and the final offset is rounded up to a multiple of the
largest alignment seen. -/
theorem calculateMemory_natural (fields : List String) (sizes : List Nat)
    (hlen : fields.length ≤ 6)
    (h : List.Forall₂ (fun f s => getSize f = Run.ok s ∧ SizeClass s) fields sizes) :
    calculateMemory fields = Run.ok (specSize sizes) := by
  obtain ⟨hsz, hcls⟩ := getSizes_of_forall₂ fields sizes h
  rw [calculateMemory_eq_loop fields sizes hlen hsz]
  obtain ⟨hinv, hfold, _, _⟩ := layoutLoop_spec sizes _ hcls layoutInv_init
  have h1 := congrArg Prod.fst hfold
  have h2 := congrArg Prod.snd hfold
  simp only at h1 h2
  rw [hinv.2, specSize, ← h1, ← h2]

/-- Instance of `calculateMemory_natural`: a byte, a pointer, a 16-byte complex
number and a 2-byte integer take 40 bytes. -/
theorem calculateMemory_natural_witness :
    calculateMemory ["a int8", "p *T", "c complex128", "d int16"]
      = Run.ok (specSize [1, 8, 16, 2]) ∧ specSize [1, 8, 16, 2] = 40 :=
  ⟨calculateMemory_natural ["a int8", "p *T", "c complex128", "d int16"] [1, 8, 16, 2]
      (by decide)
      (List.Forall₂.cons ⟨by decide, by decide⟩
        (List.Forall₂.cons ⟨by decide, by decide⟩
          (List.Forall₂.cons ⟨by decide, by decide⟩
            (List.Forall₂.cons ⟨by decide, by decide⟩ List.Forall₂.nil)))),
    by decide⟩

/-- C2: for a non-empty list of at most 6 fields whose sizes are all in
{1, 2, 4, 8, 16}, the value returned by `calculateMemory` is a multiple of the
largest alignment requirement among the fields and is at least the sum of the
field sizes. -/
theorem calculateMemory_multiple (fields : List String) (sizes : List Nat)
    (hne : fields ≠ []) (hlen : fields.length ≤ 6)
    (h : List.Forall₂ (fun f s => getSize f = Run.ok s ∧ SizeClass s) fields sizes) :
    ∃ m, calculateMemory fields = Run.ok m ∧ maxAlign sizes ∣ m ∧ sizes.sum ≤ m := by
  obtain ⟨hsz, hcls⟩ := getSizes_of_forall₂ fields sizes h
  refine ⟨_, calculateMemory_eq_loop fields sizes hlen hsz, ?_, ?_⟩
  · obtain ⟨hinv, _, _, hcm⟩ := layoutLoop_spec sizes _ hcls layoutInv_init
    have hone : 1 ≤ maxAlign sizes := by
      cases h with
      | nil => exact absurd rfl hne
      | cons hhead _ =>
        have hmin : ∀ s, SizeClass s → 1 ≤ min s 8 := by
          intro s hs
          rcases hs with h1 | h1 | h1 | h1 | h1 <;> rw [h1] <;> decide
        simp only [maxAlign, List.map_cons, List.foldr_cons]
        exact le_trans (hmin _ hhead.2) (le_max_left _ _)
    have hcm2 : (layoutLoop { capMul := 1, cap := 0, mem := 0 } sizes).capMul = maxAlign sizes := by
      rw [hcm]; exact max_eq_right hone
    rw [hinv.2, hcm2]
    exact (alignUp_least _ _ hone).2.1
  · obtain ⟨hinv, _, hsum, hcm⟩ := layoutLoop_spec sizes _ hcls layoutInv_init
    have hpos : 0 < (layoutLoop { capMul := 1, cap := 0, mem := 0 } sizes).capMul := by
      rcases hinv.1 with h1 | h1 | h1 | h1 <;> rw [h1] <;> decide
    have := (alignUp_bounds (layoutLoop { capMul := 1, cap := 0, mem := 0 } sizes).mem _ hpos).2.1
    rw [hinv.2]
    simp only [Nat.zero_add] at hsum
    omega

/-- Instance of `calculateMemory_multiple` on the same four fields. -/
theorem calculateMemory_multiple_witness :
    ∃ m, calculateMemory ["a int8", "p *T", "c complex128", "d int16"] = Run.ok m ∧
      maxAlign [1, 8, 16, 2] ∣ m ∧ [1, 8, 16, 2].sum ≤ m :=
  calculateMemory_multiple ["a int8", "p *T", "c complex128", "d int16"] [1, 8, 16, 2]
    (by decide) (by decide)
    (List.Forall₂.cons ⟨by decide, by decide⟩
      (List.Forall₂.cons ⟨by decide, by decide⟩
        (List.Forall₂.cons ⟨by decide, by decide⟩
          (List.Forall₂.cons ⟨by decide, by decide⟩ List.Forall₂.nil))))

/-- C3, as stated, fails: `calculateMemory` on `a int8`, `b int64`, `c int16`
in that order does not return 16. -/
theorem calculateMemory_example_not_16 :
    calculateMemory ["a int8", "b int64", "c int16"] ≠ Run.ok 16 := by
  decide

/-- C3, amended: `calculateMemory` on `a int8`, `b int64`, `c int16` in that
order returns 24 (1 byte, 7 bytes of padding, 8, 2 and 6 bytes of trailing
padding). -/
theorem calculateMemory_example :
    calculateMemory ["a int8", "b int64", "c int16"] = Run.ok 24 := by
  decide

/-! ## Heap's algorithm -/

theorem cons_set_perm {α : Type} (xs : List α) :
    ∀ (j : Nat) (b x : α), xs[j]? = some b → (b :: xs.set j x).Perm (x :: xs) := by
  induction xs with
  | nil => intro j b x h; simp at h
  | cons y ys ih =>
    intro j b x h
    cases j with
    | zero =>
      simp only [List.getElem?_cons_zero, Option.some.injEq] at h
      subst h
      exact List.Perm.swap _ _ _
    | succ j =>
      simp only [List.getElem?_cons_succ] at h
      simp only [List.set_cons_succ]
      exact ((List.Perm.swap y b _).trans ((ih j b x h).cons y)).trans (List.Perm.swap x y ys)

theorem set_set_perm_of_get {α : Type} (s : List α) :
    ∀ (i j : Nat) (a b : α), s[i]? = some a → s[j]? = some b →
      ((s.set i b).set j a).Perm s := by
  induction s with
  | nil => intro i j a b h; simp at h
  | cons x xs ih =>
    intro i j a b hi hj
    cases i with
    | zero =>
      simp only [List.getElem?_cons_zero, Option.some.injEq] at hi
      subst hi
      cases j with
      | zero =>
        simp only [List.getElem?_cons_zero, Option.some.injEq] at hj
        subst hj
        simp
      | succ j =>
        simp only [List.getElem?_cons_succ] at hj
        simp only [List.set_cons_zero, List.set_cons_succ]
        exact cons_set_perm xs j b x hj
    | succ i =>
      simp only [List.getElem?_cons_succ] at hi
      cases j with
      | zero =>
        simp only [List.getElem?_cons_zero, Option.some.injEq] at hj
        subst hj
        simp only [List.set_cons_zero, List.set_cons_succ]
        exact cons_set_perm xs i a x hi
      | succ j =>
        simp only [List.getElem?_cons_succ] at hj
        simp only [List.set_cons_succ]
        exact (ih i j a b hi hj).cons x

theorem swapPure_perm {α : Type} (s : List α) (i j : Nat) : (swapPure s i j).Perm s := by
  unfold swapPure
  split
  · next a b hi hj =>
    rw [List.get?_eq_getElem?] at hi hj
    exact set_set_perm_of_get s i j a b hi hj
  · exact List.Perm.refl _

theorem swapPure_map {α β : Type} (f : α → β) (s : List α) (i j : Nat) :
    swapPure (s.map f) i j = (swapPure s i j).map f := by
  unfold swapPure
  simp only [List.get?_eq_getElem?, List.getElem?_map]
  cases hi : s[i]? <;> cases hj : s[j]? <;> simp

theorem heapLoop_perm {α : Type} (gen : List α → List (List α) × List α) (k : Nat)
    (hgen : ∀ s, (gen s).2.Perm s ∧ ∀ p ∈ (gen s).1, p.Perm s) :
    ∀ (n i : Nat) (s : List α),
      (heapLoop gen k i n s).2.Perm s ∧ ∀ p ∈ (heapLoop gen k i n s).1, p.Perm s := by
  intro n
  induction n with
  | zero => intro i s; simp [heapLoop]
  | succ n ih =>
    intro i s
    have hsw := swapPure_perm s (if k % 2 = 0 then i else 0) (k - 1)
    obtain ⟨hg2, hg1⟩ := hgen (swapPure s (if k % 2 = 0 then i else 0) (k - 1))
    obtain ⟨hl2, hl1⟩ := ih (i + 1) (gen (swapPure s (if k % 2 = 0 then i else 0) (k - 1))).2
    simp only [heapLoop]
    refine ⟨hl2.trans (hg2.trans hsw), ?_⟩
    intro p hp
    rcases List.mem_append.mp hp with hp | hp
    · exact (hg1 p hp).trans hsw
    · exact (hl1 p hp).trans (hg2.trans hsw)

/-- Every arrangement visited by Heap's algorithm, and the slice it leaves,
is a permutation of the slice it starts from. -/
theorem heapGen_perm {α : Type} (m : Nat) :
    ∀ s : List α, (heapGen m s).2.Perm s ∧ ∀ p ∈ (heapGen m s).1, p.Perm s := by
  induction m with
  | zero =>
    intro s
    simp [heapGen]
  | succ m ih =>
    intro s
    obtain ⟨h2, h1⟩ := ih s
    obtain ⟨hl2, hl1⟩ := heapLoop_perm (heapGen m) (m + 2) ih (m + 1) 0 (heapGen m s).2
    simp only [heapGen]
    refine ⟨hl2.trans h2, ?_⟩
    intro p hp
    rcases List.mem_append.mp hp with hp | hp
    · exact h1 p hp
    · exact (hl1 p hp).trans h2

theorem heapLoop_map {α β : Type} (f : α → β) (genα : List α → List (List α) × List α)
    (genβ : List β → List (List β) × List β) (k : Nat)
    (hgen : ∀ s, genβ (s.map f) = ((genα s).1.map (List.map f), (genα s).2.map f)) :
    ∀ (n i : Nat) (s : List α),
      heapLoop genβ k i n (s.map f)
        = ((heapLoop genα k i n s).1.map (List.map f), (heapLoop genα k i n s).2.map f) := by
  intro n
  induction n with
  | zero => intro i s; simp [heapLoop]
  | succ n ih =>
    intro i s
    simp only [heapLoop, swapPure_map, hgen, ih, List.map_append]

/-- Heap's algorithm moves elements without looking at them: renaming the
elements of the slice renames the visited arrangements. -/
theorem heapGen_map {α β : Type} (f : α → β) (m : Nat) :
    ∀ s : List α,
      heapGen m (s.map f) = ((heapGen m s).1.map (List.map f), (heapGen m s).2.map f) := by
  induction m with
  | zero => intro s; simp [heapGen]
  | succ m ih =>
    intro s
    simp only [heapGen, ih, heapLoop_map f (heapGen m) (heapGen m) (m + 2) ih, List.map_append]

theorem heapLoop_length {α : Type} (gen : List α → List (List α) × List α) (k c : Nat)
    (hgen : ∀ s, (gen s).1.length = c) :
    ∀ (n i : Nat) (s : List α), (heapLoop gen k i n s).1.length = n * c := by
  intro n
  induction n with
  | zero => intro i s; simp [heapLoop]
  | succ n ih =>
    intro i s
    simp only [heapLoop, List.length_append, hgen, ih]
    rw [Nat.succ_mul]; omega

/-- Heap's algorithm on `m + 1` positions visits `(m + 1)!` arrangements. -/
theorem heapGen_length {α : Type} (m : Nat) :
    ∀ s : List α, (heapGen m s).1.length = (m + 1).factorial := by
  induction m with
  | zero => intro s; simp [heapGen]
  | succ m ih =>
    intro s
    simp only [heapGen, List.length_append, ih,
      heapLoop_length (heapGen m) (m + 2) _ ih]
    rw [Nat.factorial_succ (m + 1)]; ring

theorem map_getD_range (l : List String) :
    (List.range l.length).map (fun i => l.getD i "") = l := by
  apply List.ext_getElem
  · simp
  · intro i h1 h2
    simp [List.getD_eq_getElem?_getD, List.getElem?_eq_getElem h2]

theorem permCode_inj :
    ∀ q p : List Nat, q.length = p.length → (∀ x ∈ q, x < 8) → (∀ x ∈ p, x < 8) →
      permCode q = permCode p → q = p := by
  intro q
  induction q with
  | nil =>
    intro p hlen _ _ _
    exact (List.length_eq_zero.mp hlen.symm).symm
  | cons x xs ih =>
    intro p hlen hq hp hcode
    cases p with
    | nil => simp at hlen
    | cons y ys =>
      have hx : x < 8 := hq x (List.mem_cons_self _ _)
      have hy : y < 8 := hp y (List.mem_cons_self _ _)
      simp only [permCode] at hcode
      have hxy : x = y := by omega
      have hrest : permCode xs = permCode ys := by omega
      rw [hxy, ih ys (by simpa using hlen) (fun z hz => hq z (List.mem_cons_of_mem _ hz))
        (fun z hz => hp z (List.mem_cons_of_mem _ hz)) hrest]

theorem testBit_codeMask (c : Nat) :
    ∀ qs : List (List Nat), Nat.testBit (codeMask qs) c = true → ∃ q ∈ qs, permCode q = c := by
  intro qs
  induction qs with
  | nil => intro h; simp [codeMask] at h
  | cons q qs ih =>
    intro h
    simp only [codeMask, Nat.testBit_lor, Bool.or_eq_true] at h
    rcases h with h | h
    · rw [Nat.one_shiftLeft, Nat.testBit_two_pow] at h
      exact ⟨q, List.mem_cons_self _ _, of_decide_eq_true h⟩
    · obtain ⟨p, hp, hc⟩ := ih h
      exact ⟨p, List.mem_cons_of_mem _ hp, hc⟩

theorem covered_sound (mask : Nat) :
    ∀ qs : List (List Nat), covered mask qs = true →
      ∀ q ∈ qs, Nat.testBit mask (permCode q) = true := by
  intro qs
  induction qs with
  | nil => intro _ q hq; simp at hq
  | cons p ps ih =>
    intro h q hq
    simp only [covered, Bool.and_eq_true] at h
    rcases List.mem_cons.mp hq with rfl | hq
    · exact h.1
    · exact ih h.2 q hq

/-- If the bit-set test succeeds for Heap's algorithm on `0, ..., n-1`, every
permutation of `0, ..., n-1` is among the visited arrangements. -/
theorem cover_of_covered (n m : Nat) (hn : n ≤ 8)
    (h : covered (codeMask (heapGen m (List.range n)).1) (List.permutations' (List.range n))
      = true) :
    ∀ q, q.Perm (List.range n) → q ∈ (heapGen m (List.range n)).1 := by
  intro q hq
  have hbit := covered_sound _ _ h q (List.mem_permutations'.mpr hq)
  obtain ⟨p, hp, hcode⟩ := testBit_codeMask _ _ hbit
  have hpperm : p.Perm (List.range n) := (heapGen_perm m (List.range n)).2 p hp
  have hsmall : ∀ l : List Nat, l.Perm (List.range n) → ∀ x ∈ l, x < 8 := by
    intro l hl x hx
    have := List.mem_range.mp ((hl.mem_iff).mp hx)
    omega
  have : p = q :=
    permCode_inj p q (hpperm.length_eq.trans hq.length_eq.symm) (hsmall p hpperm)
      (hsmall q hq) hcode
  rw [← this]; exact hp

set_option maxRecDepth 1000000 in
set_option maxHeartbeats 4000000 in
theorem covered_upto_six :
    covered (codeMask (heapGen 0 (List.range 1)).1) (List.permutations' (List.range 1)) = true ∧
    covered (codeMask (heapGen 1 (List.range 2)).1) (List.permutations' (List.range 2)) = true ∧
    covered (codeMask (heapGen 2 (List.range 3)).1) (List.permutations' (List.range 3)) = true ∧
    covered (codeMask (heapGen 3 (List.range 4)).1) (List.permutations' (List.range 4)) = true ∧
    covered (codeMask (heapGen 4 (List.range 5)).1) (List.permutations' (List.range 5)) = true ∧
    covered (codeMask (heapGen 5 (List.range 6)).1) (List.permutations' (List.range 6)) = true := by
  refine ⟨?_, ?_, ?_, ?_, ?_, ?_⟩ <;> decide

/-- Heap's algorithm, as coded in `generate`, visits every permutation of a
slice of 1 to 6 elements. -/
theorem heapGen_complete (fields p : List String) (h1 : 1 ≤ fields.length)
    (h6 : fields.length ≤ 6) (hp : p.Perm fields) :
    p ∈ (heapGen (fields.length - 1) fields).1 := by
  have hcov : ∀ q, q.Perm (List.range fields.length) →
      q ∈ (heapGen (fields.length - 1) (List.range fields.length)).1 := by
    obtain ⟨c1, c2, c3, c4, c5, c6⟩ := covered_upto_six
    have hcases : fields.length = 1 ∨ fields.length = 2 ∨ fields.length = 3 ∨
        fields.length = 4 ∨ fields.length = 5 ∨ fields.length = 6 := by omega
    rcases hcases with h | h | h | h | h | h <;> rw [h]
    · exact cover_of_covered 1 0 (by decide) c1
    · exact cover_of_covered 2 1 (by decide) c2
    · exact cover_of_covered 3 2 (by decide) c3
    · exact cover_of_covered 4 3 (by decide) c4
    · exact cover_of_covered 5 4 (by decide) c5
    · exact cover_of_covered 6 5 (by decide) c6
  have hmem : p ∈ List.permutations' fields := List.mem_permutations'.mpr hp
  rw [← map_getD_range fields, ← List.map_permutations'] at hmem
  obtain ⟨q, hq, rfl⟩ := List.mem_map.mp hmem
  have hq2 := hcov q (List.mem_permutations'.mp hq)
  have hgen := heapGen_map (fun i => fields.getD i "") (fields.length - 1)
    (List.range fields.length)
  rw [map_getD_range] at hgen
  rw [hgen]
  exact List.mem_map.mpr ⟨q, hq2, rfl⟩

/-! ## `generate` runs the branch `k == 1` on the arrangements of Heap's algorithm -/

theorem Run.bind_assoc {α β γ : Type} (r : Run α) (f : α → Run β) (g : β → Run γ) :
    (r.bind f).bind g = r.bind fun a => (f a).bind g := by
  cases r <;> rfl

theorem Run.bind_ok {α : Type} (r : Run α) : r.bind Run.ok = r := by
  cases r <;> rfl

theorem Run.ok_bind {α β : Type} (a : α) (f : α → Run β) : (Run.ok a).bind f = f a := rfl

theorem recordAll_append (a b : List (List String)) :
    ∀ st : Top3, recordAll st (a ++ b) = (recordAll st a).bind fun st' => recordAll st' b := by
  induction a with
  | nil => intro st; rfl
  | cons s rest ih =>
    intro st
    show ((record st s).bind fun st' => recordAll st' (rest ++ b)) = _
    simp only [recordAll, Run.bind_assoc, ih]

theorem swapAt_eq_swapPure (s : List String) (i j : Nat) (hi : i < s.length)
    (hj : j < s.length) : swapAt s i j = Run.ok (swapPure s i j) := by
  unfold swapAt swapPure
  rw [List.get?_eq_get hi, List.get?_eq_get hj]

theorem swapPure_length {α : Type} (s : List α) (i j : Nat) :
    (swapPure s i j).length = s.length :=
  (swapPure_perm s i j).length_eq

theorem heapGen_snd_length {α : Type} (m : Nat) (s : List α) :
    (heapGen m s).2.length = s.length :=
  (heapGen_perm m s).1.length_eq

/-- The `for` loop of `generate(m + 2, s)`, given what `generate(m + 1, _)`
does. -/
theorem forRange_generate (fuel m : Nat)
    (hgen : ∀ (s : List String) (st : Top3), m + 1 ≤ s.length →
      generate fuel ((m + 1 : Nat) : Int) (s, st)
        = (recordAll st (heapGen m s).1).bind fun st' => Run.ok ((heapGen m s).2, st')) :
    ∀ (n i : Nat) (s : List String) (st : Top3), i + n ≤ m + 1 → m + 2 ≤ s.length →
      forRange (fun i (q : List String × Top3) =>
          (swapAt q.1 (if (m + 2) % 2 = 0 then i else 0) (m + 1)).bind fun s' =>
            generate fuel ((m + 1 : Nat) : Int) (s', q.2)) i n (s, st)
        = (recordAll st (heapLoop (heapGen m) (m + 2) i n s).1).bind fun st' =>
            Run.ok ((heapLoop (heapGen m) (m + 2) i n s).2, st') := by
  intro n
  induction n with
  | zero => intro i s st _ _; rfl
  | succ n ih =>
    intro i s st hin hlen
    have hidx : (if (m + 2) % 2 = 0 then i else 0) < s.length := by
      split_ifs <;> omega
    have hlen1 : (swapPure s (if (m + 2) % 2 = 0 then i else 0) (m + 1)).length = s.length :=
      swapPure_length _ _ _
    have hlen2 : (heapGen m (swapPure s (if (m + 2) % 2 = 0 then i else 0) (m + 1))).2.length
        = s.length := by rw [heapGen_snd_length, hlen1]
    simp only [forRange, heapLoop]
    rw [swapAt_eq_swapPure s _ (m + 1) hidx (by omega), Run.ok_bind,
      hgen _ st (by omega), Run.bind_assoc, recordAll_append, Run.bind_assoc]
    congr 1
    funext st'
    rw [Run.ok_bind]
    exact ih (i + 1) _ st' (by omega) (by omega)

/-- With a recursion budget of at least `m + 1`, `generate(m + 1, s)` on a
slice of at least `m + 1` elements runs the branch `k == 1` on the
arrangements `heapGen m s`, in order, and leaves the slice `(heapGen m s).2`. -/
theorem generate_eq_recordAll (m : Nat) :
    ∀ (fuel : Nat) (s : List String) (st : Top3), m + 1 ≤ fuel → m + 1 ≤ s.length →
      generate fuel ((m + 1 : Nat) : Int) (s, st)
        = (recordAll st (heapGen m s).1).bind fun st' => Run.ok ((heapGen m s).2, st') := by
  induction m with
  | zero =>
    intro fuel s st hfuel _
    obtain ⟨f, rfl⟩ : ∃ f, fuel = f + 1 := ⟨fuel - 1, by omega⟩
    simp only [generate, heapGen, recordAll]
    rw [if_pos (by norm_num), Run.bind_assoc]
    congr 1
  | succ m ih =>
    intro fuel s st hfuel hlen
    obtain ⟨f, rfl⟩ : ∃ f, fuel = f + 1 := ⟨fuel - 1, by omega⟩
    have hk1 : ((m + 1 + 1 : Nat) : Int) - 1 = ((m + 1 : Nat) : Int) := by push_cast; ring
    have hkne : ¬ ((m + 1 + 1 : Nat) : Int) = 1 := by omega
    have hmod : ∀ i : Nat, (if ((m + 1 + 1 : Nat) : Int) % 2 = 0 then i else 0)
        = (if (m + 2) % 2 = 0 then i else 0) := by
      intro i
      by_cases h : (m + 2) % 2 = 0
      · rw [if_pos h, if_pos (by omega)]
      · rw [if_neg h, if_neg (by omega)]
    simp only [generate, heapGen]
    rw [if_neg hkne]
    simp only [hk1, hmod, Int.toNat_ofNat]
    rw [ih f s st (by omega) (by omega), Run.bind_assoc, recordAll_append, Run.bind_assoc]
    congr 1
    funext st'
    rw [Run.ok_bind]
    exact forRange_generate f m (fun s st h => ih f s st (by omega) h) (m + 1) 0 _ st'
      (by omega) (by rw [heapGen_snd_length]; omega)

/-! ## Validated fields have a size -/

theorem lookup_mem_values {α β : Type} [BEq α] (k : α) (v : β) :
    ∀ l : List (α × β), l.lookup k = some v → v ∈ l.map Prod.snd := by
  intro l
  induction l with
  | nil => intro h; simp at h
  | cons e es ih =>
    obtain ⟨a, b⟩ := e
    intro h
    rw [List.lookup_cons] at h
    cases hk : (k == a) with
    | true =>
      rw [hk] at h
      simp only [Option.some.injEq] at h
      rw [List.map_cons, h]
      exact List.mem_cons_self _ _
    | false =>
      rw [hk] at h
      exact List.mem_cons_of_mem _ (ih h)

theorem types_sizeClass (typeName : String) (v : Nat) (h : types typeName = some v) :
    SizeClass v := by
  have hall : ∀ x ∈ typesTable.map Prod.snd, SizeClass x := by decide
  exact hall v (lookup_mem_values typeName v typesTable h)

theorem checkFields_cons (f : String) (rest : List String) :
    checkFields (f :: rest)
      = match checkField f with
        | Run.ok none => checkFields rest
        | r => r := rfl

theorem checkFields_ok_iff (fields : List String) :
    checkFields fields = Run.ok none ↔ ∀ f ∈ fields, checkField f = Run.ok none := by
  induction fields with
  | nil => exact ⟨fun _ f hf => absurd hf (List.not_mem_nil f), fun _ => rfl⟩
  | cons f rest ih =>
    rw [List.forall_mem_cons, ← ih, checkFields_cons]
    split
    · next h => exact ⟨fun h2 => ⟨h, h2⟩, fun h2 => h2.2⟩
    · next r hne => exact ⟨fun h => absurd h hne, fun h => absurd h.1 hne⟩

theorem checkField_ok_getSize (f : String) (h : checkField f = Run.ok none) :
    ∃ s, getSize f = Run.ok s ∧ SizeClass s := by
  unfold checkField at h
  unfold getSize
  by_cases h1 : f.data.length = 0
  · rw [if_pos h1] at h; cases h
  rw [if_neg h1] at h
  by_cases h2 : (goSplit f).length < 2
  · rw [if_pos h2] at h; cases h
  rw [if_neg h2] at h
  cases hp : (goSplit f)[1]? with
  | none => rw [hp] at h; cases h
  | some typeName =>
    rw [hp] at h
    simp only at h ⊢
    cases hd : typeName.data with
    | nil => rw [hd] at h; cases h
    | cons c rest =>
      rw [hd] at h
      simp only at h ⊢
      by_cases h3 : c = '*' ∧ (c :: rest).length ≤ 1
      · rw [if_pos h3] at h; cases h
      rw [if_neg h3] at h
      by_cases h4 : (types typeName).isNone ∧ c ≠ '*'
      · rw [if_pos h4] at h; cases h
      by_cases hstar : c = '*'
      · have hlen : (c :: rest).length > 1 := by
          by_contra hcon
          exact h3 ⟨hstar, by omega⟩
        rw [if_pos ⟨hstar, hlen⟩]
        exact ⟨wordSize, rfl, by decide⟩
      · rw [if_neg (fun hc => hstar hc.1)]
        cases ht : types typeName with
        | none => exact absurd ⟨by simp [ht], hstar⟩ h4
        | some v => exact ⟨v, rfl, types_sizeClass typeName v ht⟩

theorem forall₂_fieldSize (p : List String)
    (hv : ∀ f ∈ p, ∃ s, getSize f = Run.ok s ∧ SizeClass s) :
    List.Forall₂ (fun f s => getSize f = Run.ok s ∧ SizeClass s) p (p.map fieldSize) := by
  induction p with
  | nil => exact List.Forall₂.nil
  | cons f rest ih =>
    obtain ⟨s, hs, hc⟩ := hv f (List.mem_cons_self _ _)
    have hso : fieldSize f = s := by simp [fieldSize, hs]
    rw [List.map_cons, hso]
    exact List.Forall₂.cons ⟨hs, hc⟩ (ih fun g hg => hv g (List.mem_cons_of_mem _ hg))

theorem layoutLoop_mem_le (sizes : List Nat) :
    ∀ st : Layout, (∀ s ∈ sizes, SizeClass s) → LayoutInv st →
      (layoutLoop st sizes).mem ≤ st.mem + 23 * sizes.length := by
  induction sizes with
  | nil => intro st _ _; simp [layoutLoop]
  | cons size rest ih =>
    intro st hcls hinv
    have hs : SizeClass size := hcls size (List.mem_cons_self _ _)
    obtain ⟨hinv1, hmem1, _⟩ := layoutStep_spec st size hs hinv
    have h1 := ih (layoutStep st size) (fun s hmem => hcls s (List.mem_cons_of_mem _ hmem)) hinv1
    have hloop : layoutLoop st (size :: rest) = layoutLoop (layoutStep st size) rest := rfl
    have hb := (alignUp_bounds st.mem (specAlign size)
      (by rcases hs with rfl | rfl | rfl | rfl | rfl <;> simp [specAlign])).2.2
    have hal : specAlign size + size ≤ 24 := by
      rcases hs with rfl | rfl | rfl | rfl | rfl <;> simp [specAlign]
    rw [hloop, List.length_cons]
    omega

/-- On at most 6 fields that all have a catalog size, `calculateMemory`
returns, and the value is below the sentinel of the exhaustive search. -/
theorem calculateMemory_valid (p : List String) (hlen : p.length ≤ 6)
    (hv : ∀ f ∈ p, ∃ s, getSize f = Run.ok s ∧ SizeClass s) :
    ∃ m, calculateMemory p = Run.ok m ∧ m < 100000 := by
  obtain ⟨hsz, hcls⟩ := getSizes_of_forall₂ p _ (forall₂_fieldSize p hv)
  refine ⟨_, calculateMemory_eq_loop p _ hlen hsz, ?_⟩
  obtain ⟨hinv, _, _, _⟩ := layoutLoop_spec (p.map fieldSize) _ hcls layoutInv_init
  have hle := layoutLoop_mem_le (p.map fieldSize) _ hcls layoutInv_init
  have hpos : 0 < (layoutLoop { capMul := 1, cap := 0, mem := 0 } (p.map fieldSize)).capMul := by
    rcases hinv.1 with h1 | h1 | h1 | h1 <;> rw [h1] <;> decide
  have hcm : (layoutLoop { capMul := 1, cap := 0, mem := 0 } (p.map fieldSize)).capMul ≤ 8 := by
    rcases hinv.1 with h1 | h1 | h1 | h1 <;> rw [h1] <;> decide
  have hb := (alignUp_bounds (layoutLoop { capMul := 1, cap := 0, mem := 0 } (p.map fieldSize)).mem
    _ hpos).2.2
  rw [hinv.2]
  simp only [List.length_map, Nat.zero_add] at hle
  omega

theorem valid_of_checkFields (fields : List String) (hv : checkFields fields = Run.ok none) :
    ∀ f ∈ fields, ∃ s, getSize f = Run.ok s ∧ SizeClass s :=
  fun f hf => checkField_ok_getSize f ((checkFields_ok_iff fields).mp hv f hf)

theorem valid_of_perm (fields p : List String)
    (hv : ∀ f ∈ fields, ∃ s, getSize f = Run.ok s ∧ SizeClass s) (hp : p.Perm fields) :
    ∀ f ∈ p, ∃ s, getSize f = Run.ok s ∧ SizeClass s :=
  fun f hf => hv f (hp.mem_iff.mp hf)

/-! ## The three best orderings -/

theorem topInv_init (fields : List String) (n : Nat) : TopInv fields [] (initTop3 n) where
  le01 := le_refl _
  le12 := le_refl _
  slot0 := Or.inl rfl
  slot1 := Or.inl rfl
  slot2 := Or.inl rfl
  first := fun h => absurd h (by simp)
  second := fun h => absurd h (by simp)
  third := fun h => absurd h (by simp)
  least := fun p hp => absurd hp (List.not_mem_nil p)

/-- The branch `k == 1` of `generate` keeps the invariant of `best` and
`min`. -/
theorem record_inv (fields : List String) (seen : List (List String)) (st : Top3)
    (p : List String) (m : Nat) (hinv : TopInv fields seen st) (hp : p.Perm fields)
    (hm : calculateMemory p = Run.ok m) (hlt : m < 100000) :
    ∃ st', record st p = Run.ok st' ∧ TopInv fields (seen ++ [p]) st' := by
  have hfill : Filled fields p m := ⟨hp, hm⟩
  have hlen : (seen ++ [p]).length = seen.length + 1 := by simp
  have hleast : ∀ bound, bound ≤ st.min0 → bound ≤ m →
      ∀ q ∈ seen ++ [p], ∃ mq, calculateMemory q = Run.ok mq ∧ bound ≤ mq := by
    intro bound hb1 hb2 q hq
    rcases List.mem_append.mp hq with hq | hq
    · obtain ⟨mq, h1, h2⟩ := hinv.least q hq
      exact ⟨mq, h1, le_trans hb1 h2⟩
    · rw [List.mem_singleton.mp hq]
      exact ⟨m, hm, hb2⟩
  have h01 := hinv.le01
  have h12 := hinv.le12
  unfold record
  rw [hm, Run.ok_bind]
  by_cases c0 : m < st.min0
  · rw [if_pos c0]
    refine ⟨_, rfl, ?_⟩
    exact
      { le01 := le_of_lt c0
        le12 := h01
        slot0 := Or.inr hfill
        slot1 := hinv.slot0
        slot2 := hinv.slot1
        first := fun _ => hfill
        second := fun h => hinv.first (by omega)
        third := fun h => hinv.second (by omega)
        least := hleast m (le_of_lt c0) (le_refl _) }
  rw [if_neg c0]
  by_cases c1 : m < st.min1
  · rw [if_pos c1]
    refine ⟨_, rfl, ?_⟩
    exact
      { le01 := Nat.le_of_not_lt c0
        le12 := le_of_lt c1
        slot0 := hinv.slot0
        slot1 := Or.inr hfill
        slot2 := hinv.slot1
        first := fun _ => hinv.slot0.resolve_left (by omega)
        second := fun _ => hfill
        third := fun h => hinv.second (by omega)
        least := hleast st.min0 (le_refl _) (Nat.le_of_not_lt c0) }
  rw [if_neg c1]
  by_cases c2 : m < st.min2
  · rw [if_pos c2]
    refine ⟨_, rfl, ?_⟩
    exact
      { le01 := h01
        le12 := Nat.le_of_not_lt c1
        slot0 := hinv.slot0
        slot1 := hinv.slot1
        slot2 := Or.inr hfill
        first := fun _ => hinv.slot0.resolve_left (by omega)
        second := fun _ => hinv.slot1.resolve_left (by omega)
        third := fun _ => hfill
        least := hleast st.min0 (le_refl _) (Nat.le_of_not_lt c0) }
  rw [if_neg c2]
  refine ⟨_, rfl, ?_⟩
  exact
    { le01 := h01
      le12 := h12
      slot0 := hinv.slot0
      slot1 := hinv.slot1
      slot2 := hinv.slot2
      first := fun _ => hinv.slot0.resolve_left (by omega)
      second := fun _ => hinv.slot1.resolve_left (by omega)
      third := fun _ => hinv.slot2.resolve_left (by omega)
      least := hleast st.min0 (le_refl _) (Nat.le_of_not_lt c0) }

theorem recordAll_inv (fields : List String) (todo : List (List String)) :
    ∀ (seen : List (List String)) (st : Top3), TopInv fields seen st →
      (∀ p ∈ todo, p.Perm fields ∧ ∃ m, calculateMemory p = Run.ok m ∧ m < 100000) →
      ∃ st', recordAll st todo = Run.ok st' ∧ TopInv fields (seen ++ todo) st' := by
  induction todo with
  | nil =>
    intro seen st hinv _
    exact ⟨st, rfl, by rw [List.append_nil]; exact hinv⟩
  | cons p rest ih =>
    intro seen st hinv hall
    obtain ⟨hp, m, hm, hlt⟩ := hall p (List.mem_cons_self _ _)
    obtain ⟨st1, hrec, hinv1⟩ := record_inv fields seen st p m hinv hp hm hlt
    obtain ⟨st2, hall2, hinv2⟩ :=
      ih (seen ++ [p]) st1 hinv1 (fun q hq => hall q (List.mem_cons_of_mem _ hq))
    refine ⟨st2, ?_, ?_⟩
    · rw [recordAll, hrec, Run.ok_bind, hall2]
    · rw [List.append_assoc] at hinv2
      exact hinv2

/-- On 1 to 6 validated fields and with a recursion budget of at least the
number of fields, `solveTetrisBruteForce` returns `best`, and `best` and `min`
satisfy the invariant for the arrangements of Heap's algorithm. -/
theorem solveTetrisBruteForce_inv (fields : List String) (fuel : Nat)
    (h1 : 1 ≤ fields.length) (h6 : fields.length ≤ 6)
    (hv : checkFields fields = Run.ok none) (hfuel : fields.length ≤ fuel) :
    ∃ st, solveTetrisBruteForce fuel fields = Run.ok [st.best0, st.best1, st.best2] ∧
      TopInv fields (heapGen (fields.length - 1) fields).1 st := by
  have hvalid := valid_of_checkFields fields hv
  have hall : ∀ p ∈ (heapGen (fields.length - 1) fields).1,
      p.Perm fields ∧ ∃ m, calculateMemory p = Run.ok m ∧ m < 100000 := by
    intro p hp
    have hperm := (heapGen_perm (fields.length - 1) fields).2 p hp
    exact ⟨hperm, calculateMemory_valid p (by rw [hperm.length_eq]; exact h6)
      (valid_of_perm fields p hvalid hperm)⟩
  obtain ⟨st, hrun, hinv⟩ :=
    recordAll_inv fields _ [] (initTop3 fields.length) (topInv_init fields _) hall
  refine ⟨st, ?_, by simpa using hinv⟩
  have hk : (fields.length : Int) = ((fields.length - 1 + 1 : Nat) : Int) := by
    congr 1; omega
  unfold solveTetrisBruteForce
  rw [hk, generate_eq_recordAll (fields.length - 1) fuel fields _ (by omega) (by omega), hrun]
  rfl

/-! ## Greedy ordering -/

theorem fieldSize_eq (f : String) (s : Nat) (h : getSize f = Run.ok s) : fieldSize f = s := by
  simp [fieldSize, h]

theorem sinkLeft_spec (x : String) (hx : ∃ s, getSize x = Run.ok s ∧ SizeClass s) :
    ∀ l : List String, (∀ f ∈ l, ∃ s, getSize f = Run.ok s ∧ SizeClass s) →
      ∃ r, sinkLeft x l = Run.ok r ∧ r.Perm (x :: l) ∧
        (l.Pairwise (fun a b => fieldSize a ≤ fieldSize b) →
          r.Pairwise (fun a b => fieldSize a ≤ fieldSize b)) := by
  obtain ⟨sx, hsx, _⟩ := hx
  intro l
  induction l with
  | nil =>
    intro _
    exact ⟨[x], rfl, List.Perm.refl _, fun _ => List.pairwise_singleton _ _⟩
  | cons y ys ih =>
    intro hv
    obtain ⟨sy, hsy, _⟩ := hv y (List.mem_cons_self _ _)
    obtain ⟨r, hr, hperm, hsorted⟩ := ih (fun f hf => hv f (List.mem_cons_of_mem _ hf))
    unfold sinkLeft
    rw [hsx, hsy, Run.ok_bind, Run.ok_bind]
    by_cases hgt : sx > sy
    · rw [if_pos hgt, hr, Run.ok_bind]
      refine ⟨_, rfl, (hperm.cons y).trans (List.Perm.swap x y ys), ?_⟩
      intro hpw
      rw [List.pairwise_cons] at hpw ⊢
      refine ⟨?_, hsorted hpw.2⟩
      intro z hz
      rcases List.mem_cons.mp (hperm.mem_iff.mp hz) with rfl | hz
      · rw [fieldSize_eq y sy hsy, fieldSize_eq z sx hsx]; omega
      · exact hpw.1 z hz
    · rw [if_neg hgt]
      refine ⟨_, rfl, List.Perm.refl _, ?_⟩
      intro hpw
      refine List.pairwise_cons.mpr ⟨?_, hpw⟩
      have hxy : fieldSize x ≤ fieldSize y := by
        rw [fieldSize_eq y sy hsy, fieldSize_eq x sx hsx]; omega
      intro z hz
      rcases List.mem_cons.mp hz with rfl | hz
      · exact hxy
      · exact le_trans hxy ((List.pairwise_cons.mp hpw).1 z hz)

theorem insertionLoop_spec (todo : List String) :
    ∀ sortedRev : List String,
      (∀ f ∈ sortedRev ++ todo, ∃ s, getSize f = Run.ok s ∧ SizeClass s) →
      sortedRev.Pairwise (fun a b => fieldSize a ≤ fieldSize b) →
      ∃ g, insertionLoop sortedRev todo = Run.ok g ∧ g.Perm (sortedRev.reverse ++ todo) ∧
        g.Pairwise (fun a b => fieldSize b ≤ fieldSize a) := by
  induction todo with
  | nil =>
    intro sortedRev _ hpw
    refine ⟨sortedRev.reverse, rfl, by simp, ?_⟩
    exact List.pairwise_reverse.mpr hpw
  | cons x xs ih =>
    intro sortedRev hv hpw
    obtain ⟨p, hp, hperm, hsorted⟩ :=
      sinkLeft_spec x (hv x (by simp)) sortedRev (fun f hf => hv f (by simp [hf]))
    have hvp : ∀ f ∈ p ++ xs, ∃ s, getSize f = Run.ok s ∧ SizeClass s := by
      intro f hf
      rcases List.mem_append.mp hf with hf | hf
      · rcases List.mem_cons.mp (hperm.mem_iff.mp hf) with rfl | hf
        · exact hv f (by simp)
        · exact hv f (by simp [hf])
      · exact hv f (by simp [hf])
    obtain ⟨g, hg, hgperm, hgsorted⟩ := ih p hvp (hsorted hpw)
    refine ⟨g, ?_, ?_, hgsorted⟩
    · rw [insertionLoop, hp, Run.ok_bind, hg]
    · have h1 : p.reverse.Perm (x :: sortedRev.reverse) :=
        (List.reverse_perm p).trans (hperm.trans ((List.reverse_perm sortedRev).symm.cons x))
      exact hgperm.trans ((h1.append_right xs).trans List.perm_middle.symm)

/-- On fields that all have a size, the insertion sort returns a permutation
of them in which sizes never increase from left to right. -/
theorem insertionSort_spec (fields : List String)
    (hv : ∀ f ∈ fields, ∃ s, getSize f = Run.ok s ∧ SizeClass s) :
    ∃ g, insertionSort fields = Run.ok g ∧ g.Perm fields ∧
      g.Pairwise (fun a b => fieldSize b ≤ fieldSize a) := by
  cases fields with
  | nil => exact ⟨[], rfl, List.Perm.refl _, List.Pairwise.nil⟩
  | cons x xs =>
    obtain ⟨g, hg, hperm, hsorted⟩ :=
      insertionLoop_spec xs [x] (by simpa using hv) (List.pairwise_singleton _ _)
    exact ⟨g, hg, by simpa using hperm, hsorted⟩

/-- On at most 6 fields `solveTetris` is the insertion sort, whatever the
library does on longer slices. -/
theorem solveTetris_short (sortLong : List String → Run (List String)) (fields : List String)
    (h6 : fields.length ≤ 6) : solveTetris sortLong fields = insertionSort fields := by
  unfold solveTetris
  rw [if_pos h6]

/-- On at most 6 fields that all have a size, `solveTetris` returns a
permutation of them in which sizes never increase from left to right. -/
theorem solveTetris_spec (sortLong : List String → Run (List String)) (fields : List String)
    (h6 : fields.length ≤ 6) (hv : ∀ f ∈ fields, ∃ s, getSize f = Run.ok s ∧ SizeClass s) :
    ∃ g, solveTetris sortLong fields = Run.ok g ∧ g.Perm fields ∧
      g.Pairwise (fun a b => fieldSize b ≤ fieldSize a) := by
  rw [solveTetris_short sortLong fields h6]
  exact insertionSort_spec fields hv

/-- C4: for 1 to 6 validated fields (word size 8) and a recursion budget of at
least the number of fields, the first ordering returned by
`solveTetrisBruteForce` is a permutation of the input, its `calculateMemory`
value is the least over all permutations of the input, and that value is at
most the `calculateMemory` value of the ordering of `solveTetris`. -/
theorem bruteForce_first_minimal (sortLong : List String → Run (List String))
    (fields : List String) (fuel : Nat)
    (h1 : 1 ≤ fields.length) (h6 : fields.length ≤ 6)
    (hv : checkFields fields = Run.ok none) (hfuel : fields.length ≤ fuel) :
    ∃ b0 b1 b2 m, solveTetrisBruteForce fuel fields = Run.ok [b0, b1, b2] ∧
      b0.Perm fields ∧ calculateMemory b0 = Run.ok m ∧
      (∀ p : List String, p.Perm fields → ∃ mp, calculateMemory p = Run.ok mp ∧ m ≤ mp) ∧
      ∃ g mg, solveTetris sortLong fields = Run.ok g ∧ calculateMemory g = Run.ok mg ∧
        m ≤ mg := by
  obtain ⟨st, hrun, hinv⟩ := solveTetrisBruteForce_inv fields fuel h1 h6 hv hfuel
  have hlen : 1 ≤ (heapGen (fields.length - 1) fields).1.length := by
    rw [heapGen_length]; exact Nat.factorial_pos _
  obtain ⟨hperm, hmem⟩ := hinv.first hlen
  have hmin : ∀ p : List String, p.Perm fields →
      ∃ mp, calculateMemory p = Run.ok mp ∧ st.min0 ≤ mp :=
    fun p hp => hinv.least p (heapGen_complete fields p h1 h6 hp)
  obtain ⟨g, hg, hgperm, _⟩ :=
    solveTetris_spec sortLong fields h6 (valid_of_checkFields fields hv)
  obtain ⟨mg, hmg, hle⟩ := hmin g hgperm
  exact ⟨st.best0, st.best1, st.best2, st.min0, hrun, hperm, hmem, hmin, g, mg, hg, hmg, hle⟩

/-- Instance of `bruteForce_first_minimal` on three validated fields. -/
theorem bruteForce_first_minimal_witness :
    ∃ b0 b1 b2 m,
      solveTetrisBruteForce 3 ["a int8", "b int64", "c int16"] = Run.ok [b0, b1, b2] ∧
      b0.Perm ["a int8", "b int64", "c int16"] ∧ calculateMemory b0 = Run.ok m ∧
      (∀ p : List String, p.Perm ["a int8", "b int64", "c int16"] →
        ∃ mp, calculateMemory p = Run.ok mp ∧ m ≤ mp) ∧
      ∃ g mg, solveTetris insertionSort ["a int8", "b int64", "c int16"] = Run.ok g ∧
        calculateMemory g = Run.ok mg ∧ m ≤ mg :=
  bruteForce_first_minimal insertionSort ["a int8", "b int64", "c int16"] 3 (by decide)
    (by decide) (by decide) (by decide)

/-- C5: for 3 to 6 validated fields and a recursion budget of at least the
number of fields, each of the three orderings returned by
`solveTetrisBruteForce` is a permutation of the input, and their
`calculateMemory` values are in ascending order. -/
theorem bruteForce_ranked (fields : List String) (fuel : Nat)
    (h3 : 3 ≤ fields.length) (h6 : fields.length ≤ 6)
    (hv : checkFields fields = Run.ok none) (hfuel : fields.length ≤ fuel) :
    ∃ b0 b1 b2 m0 m1 m2, solveTetrisBruteForce fuel fields = Run.ok [b0, b1, b2] ∧
      b0.Perm fields ∧ b1.Perm fields ∧ b2.Perm fields ∧
      calculateMemory b0 = Run.ok m0 ∧ calculateMemory b1 = Run.ok m1 ∧
      calculateMemory b2 = Run.ok m2 ∧ m0 ≤ m1 ∧ m1 ≤ m2 := by
  obtain ⟨st, hrun, hinv⟩ := solveTetrisBruteForce_inv fields fuel (by omega) h6 hv hfuel
  have hlen : 3 ≤ (heapGen (fields.length - 1) fields).1.length := by
    rw [heapGen_length]
    have hfac : (3 : Nat).factorial ≤ (fields.length - 1 + 1).factorial :=
      Nat.factorial_le (by omega)
    have h6 : (3 : Nat).factorial = 6 := by decide
    omega
  obtain ⟨hp0, hm0⟩ := hinv.first (by omega)
  obtain ⟨hp1, hm1⟩ := hinv.second (by omega)
  obtain ⟨hp2, hm2⟩ := hinv.third hlen
  exact ⟨st.best0, st.best1, st.best2, st.min0, st.min1, st.min2, hrun, hp0, hp1, hp2,
    hm0, hm1, hm2, hinv.le01, hinv.le12⟩

/-- Instance of `bruteForce_ranked` on three validated fields. -/
theorem bruteForce_ranked_witness :
    ∃ b0 b1 b2 m0 m1 m2,
      solveTetrisBruteForce 3 ["a int8", "b int64", "c int16"] = Run.ok [b0, b1, b2] ∧
      b0.Perm ["a int8", "b int64", "c int16"] ∧ b1.Perm ["a int8", "b int64", "c int16"] ∧
      b2.Perm ["a int8", "b int64", "c int16"] ∧
      calculateMemory b0 = Run.ok m0 ∧ calculateMemory b1 = Run.ok m1 ∧
      calculateMemory b2 = Run.ok m2 ∧ m0 ≤ m1 ∧ m1 ≤ m2 :=
  bruteForce_ranked ["a int8", "b int64", "c int16"] 3 (by decide) (by decide)
    (by decide) (by decide)

/-- C6 fails on the code: for the single field `a int8`, and for the two
fields `a int8`, `b int64`, `solveTetrisBruteForce` returns slots that still
hold the empty strings of the initialisation; such a slot is not a
permutation of the input and `calculateMemory` panics on it. -/
theorem bruteForce_unfilled_slots :
    solveTetrisBruteForce 1 ["a int8"] = Run.ok [["a int8"], [""], [""]] ∧
    ¬ [""].Perm ["a int8"] ∧
    calculateMemory [""] = Run.panic ∧
    solveTetrisBruteForce 2 ["a int8", "b int64"]
      = Run.ok [["a int8", "b int64"], ["b int64", "a int8"], ["", ""]] ∧
    ¬ ["", ""].Perm ["a int8", "b int64"] ∧
    calculateMemory ["", ""] = Run.panic := by
  refine ⟨by decide, ?_, by decide, by decide, ?_, by decide⟩
  · intro h
    have := h.mem_iff.mp (List.mem_cons_self "" [])
    revert this; decide
  · intro h
    have := h.mem_iff.mp (List.mem_cons_self "" [""])
    revert this; decide

/-- The result of `solveTetrisBruteForce` does not depend on the recursion
budget once the budget reaches the number of fields. -/
theorem solveTetrisBruteForce_fuel (fields : List String) (fuel fuel' : Nat)
    (h1 : 1 ≤ fields.length) (hfuel : fields.length ≤ fuel) (hfuel' : fields.length ≤ fuel') :
    solveTetrisBruteForce fuel fields = solveTetrisBruteForce fuel' fields := by
  have hk : (fields.length : Int) = ((fields.length - 1 + 1 : Nat) : Int) := by
    congr 1; omega
  unfold solveTetrisBruteForce
  rw [hk, generate_eq_recordAll (fields.length - 1) fuel fields _ (by omega) (by omega),
    generate_eq_recordAll (fields.length - 1) fuel' fields _ (by omega) (by omega)]

/-! ## Validation -/

theorem splitSpace_cons (c : Char) (cs : List Char) :
    splitSpace (c :: cs)
      = if c = ' ' then [] :: splitSpace cs
        else
          match splitSpace cs with
          | p :: ps => (c :: p) :: ps
          | [] => [[c]] := rfl

theorem splitSpace_ne_nil (l : List Char) : splitSpace l ≠ [] := by
  cases l with
  | nil => simp [splitSpace]
  | cons c cs =>
    unfold splitSpace
    split_ifs
    · simp
    · split <;> simp

theorem splitSpace_no_space (l : List Char) (h : ' ' ∉ l) : splitSpace l = [l] := by
  induction l with
  | nil => rfl
  | cons c cs ih =>
    have hc : c ≠ ' ' := fun hc => h (by simp [hc])
    have hcs : ' ' ∉ cs := fun hcs => h (List.mem_cons_of_mem _ hcs)
    rw [splitSpace_cons, if_neg hc, ih hcs]

theorem splitSpace_append (name rest : List Char) (h : ' ' ∉ name) :
    splitSpace (name ++ ' ' :: rest) = name :: splitSpace rest := by
  induction name with
  | nil => simp [splitSpace]
  | cons c cs ih =>
    have hc : c ≠ ' ' := fun hc => h (by simp [hc])
    have hcs : ' ' ∉ cs := fun hcs => h (List.mem_cons_of_mem _ hcs)
    rw [List.cons_append, splitSpace_cons, if_neg hc, ih hcs]

theorem splitSpace_length_lt_two (l : List Char) : (splitSpace l).length < 2 ↔ ' ' ∉ l := by
  constructor
  · intro hlen hmem
    obtain ⟨name, rest, rfl, hname⟩ : ∃ name rest, l = name ++ ' ' :: rest ∧ ' ' ∉ name := by
      clear hlen
      induction l with
      | nil => simp at hmem
      | cons c cs ih =>
        by_cases hc : c = ' '
        · exact ⟨[], cs, by simp [hc], by simp⟩
        · have hcs : ' ' ∈ cs := by
            rcases List.mem_cons.mp hmem with h | h
            · exact absurd h.symm hc
            · exact h
          obtain ⟨name, rest, hl, hname⟩ := ih hcs
          refine ⟨c :: name, rest, by simp [hl], ?_⟩
          intro h
          rcases List.mem_cons.mp h with h | h
          · exact hc h.symm
          · exact hname h
    rw [splitSpace_append name rest hname] at hlen
    have := List.length_pos.mpr (splitSpace_ne_nil rest)
    simp only [List.length_cons] at hlen
    omega
  · intro h
    rw [splitSpace_no_space l h]
    simp

theorem goSplit_pair (name typeName : String) (hn : ' ' ∉ name.data)
    (ht : ' ' ∉ typeName.data) : goSplit (name ++ " " ++ typeName) = [name, typeName] := by
  unfold goSplit
  have hdata : (name ++ " " ++ typeName).data = name.data ++ ' ' :: typeName.data := by
    simp [String.data_append]
  rw [hdata, splitSpace_append _ _ hn, splitSpace_no_space _ ht]
  rfl

theorem string_eq_of_data (s : String) (l : List Char) (h : s.data = l) : s = String.mk l := by
  cases s; simp only at h; rw [h]

/-- What `checkField` does on a line, against the vocabulary of the
specification: it lets exactly the lines through that are not offending,
returns the error that belongs to an offending line, and panics when the
second piece of the line is empty. -/
theorem checkField_cases (l : String) :
    (checkField l = Run.ok none ∧ ¬ Offending l) ∨
    (checkField l = Run.ok (some (errorKind l)) ∧ Offending l) ∨
    (checkField l = Run.panic ∧ Offending l ∧ l ≠ "" ∧ secondPiece l = "") := by
  by_cases h1 : l.data.length = 0
  · have hl : l = "" := string_eq_of_data l [] (List.length_eq_zero.mp h1)
    right; left
    subst hl
    exact ⟨by decide, Or.inl rfl⟩
  have hne : l ≠ "" := by
    intro hl; rw [hl] at h1; exact h1 rfl
  by_cases h2 : (goSplit l).length < 2
  · have hsp : ' ' ∉ l.data := by
      rw [goSplit, List.length_map] at h2
      exact (splitSpace_length_lt_two _).mp h2
    right; left
    refine ⟨?_, Or.inr (Or.inl hsp)⟩
    unfold checkField errorKind
    rw [if_neg h1, if_pos h2, if_neg hne, if_pos hsp]
  have hsp : ¬ ' ' ∉ l.data := by
    intro hsp
    apply h2
    rw [goSplit, List.length_map]
    exact (splitSpace_length_lt_two _).mpr hsp
  cases hp : (goSplit l)[1]? with
  | none =>
    exfalso
    have := List.getElem?_eq_none_iff.mp hp
    omega
  | some t =>
    have hsec : secondPiece l = t := by simp [secondPiece, hp]
    cases hd : t.data with
    | nil =>
      have ht : t = "" := string_eq_of_data t [] hd
      right; right
      refine ⟨?_, Or.inr (Or.inr ?_), hne, by rw [hsec, ht]⟩
      · unfold checkField
        rw [if_neg h1, if_neg h2, hp]
        simp only [hd]
      · rw [hsec, ht]; decide
    | cons c rest =>
      by_cases h3 : c = '*' ∧ (c :: rest).length ≤ 1
      · have hrest : rest = [] := by
          have := h3.2
          simp only [List.length_cons] at this
          exact List.length_eq_zero.mp (by omega)
        have ht : t = "*" := string_eq_of_data t ['*'] (by rw [hd, h3.1, hrest])
        right; left
        refine ⟨?_, Or.inr (Or.inr ?_)⟩
        · unfold checkField errorKind
          rw [if_neg h1, if_neg h2, hp, if_neg hne, if_neg hsp, if_pos (by rw [hsec, ht])]
          simp only [hd]
          rw [if_pos h3]
        · rw [hsec, ht]; decide
      by_cases h4 : (types t).isNone ∧ c ≠ '*'
      · have hstar : t ≠ "*" := by
          intro ht
          rw [ht] at hd
          have : '*' = c := by
            have h5 : ("*" : String).data = ['*'] := rfl
            rw [h5] at hd
            exact (List.cons.inj hd).1
          exact h4.2 this.symm
        right; left
        refine ⟨?_, Or.inr (Or.inr ?_)⟩
        · unfold checkField errorKind
          rw [if_neg h1, if_neg h2, hp, if_neg hne, if_neg hsp, if_neg (by rw [hsec]; exact hstar),
            hsec]
          simp only [hd]
          rw [if_neg h3, if_pos h4]
        · rw [hsec]
          intro hrec
          rcases hrec with hrec | hrec
          · have := h4.1
            rw [Option.isNone_iff_eq_none] at this
            rw [this] at hrec
            exact absurd hrec (by decide)
          · rw [hd, List.head?_cons, Option.some.injEq] at hrec
            exact h4.2 hrec.1
      left
      refine ⟨?_, ?_⟩
      · unfold checkField
        rw [if_neg h1, if_neg h2, hp]
        simp only [hd]
        rw [if_neg h3, if_neg h4]
      · intro hoff
        rcases hoff with hoff | hoff | hoff
        · exact hne hoff
        · exact hsp hoff
        · apply hoff
          rw [hsec]
          by_cases hstar : c = '*'
          · right
            rw [hd]
            refine ⟨by rw [List.head?_cons, hstar], ?_⟩
            by_contra hcon
            exact h3 ⟨hstar, by omega⟩
          · left
            by_contra hcon
            apply h4
            refine ⟨?_, hstar⟩
            cases hty : types t with
            | none => rfl
            | some v => rw [hty] at hcon; exact absurd rfl hcon

theorem checkField_ok_iff (l : String) : checkField l = Run.ok none ↔ ¬ Offending l := by
  rcases checkField_cases l with h | h | h
  · exact ⟨fun _ => h.2, fun _ => h.1⟩
  · constructor
    · intro h2; rw [h.1] at h2; cases h2
    · intro h2; exact absurd h.2 h2
  · constructor
    · intro h2; rw [h.1] at h2; cases h2
    · intro h2; exact absurd h.2.1 h2

theorem checkField_error (l : String) (e : FieldError) (h : checkField l = Run.ok (some e)) :
    Offending l ∧ e = errorKind l := by
  rcases checkField_cases l with h2 | h2 | h2
  · rw [h2.1] at h; cases h
  · rw [h2.1] at h
    cases h
    exact ⟨h2.2, rfl⟩
  · rw [h2.1] at h; cases h

theorem offending_pair_iff (name typeName : String) (hn : ' ' ∉ name.data)
    (ht : ' ' ∉ typeName.data) :
    ¬ Offending (name ++ " " ++ typeName) ↔ Recognised typeName := by
  have hdata : (name ++ " " ++ typeName).data = name.data ++ ' ' :: typeName.data := by
    simp [String.data_append]
  have hsec : secondPiece (name ++ " " ++ typeName) = typeName := by
    simp [secondPiece, goSplit_pair name typeName hn ht]
  have hne : name ++ " " ++ typeName ≠ "" := by
    intro h
    have h2 := congrArg String.data h
    rw [hdata] at h2
    have h3 : ("" : String).data = [] := rfl
    rw [h3] at h2
    exact absurd h2 (by simp)
  have hsp : ' ' ∈ (name ++ " " ++ typeName).data := by
    rw [hdata]; simp
  unfold Offending
  rw [hsec]
  constructor
  · intro h
    by_contra hcon
    exact h (Or.inr (Or.inr hcon))
  · intro h hoff
    rcases hoff with hoff | hoff | hoff
    · exact hne hoff
    · exact hoff hsp
    · exact hoff h

/-- C8, as stated, fails: a type name may contain a space, and `checkFields`
looks at the second piece of the line only.  The line `a int8 x` (name `a`,
type name `int8 x`) is accepted although `int8 x` is not recognised, and the
line `a * x` (type name `* x`, which starts with `'*'` and has further
characters) is rejected. -/
theorem checkFields_reads_second_piece_only :
    ("a" ≠ "" ∧ ' ' ∉ "a".data ∧ "int8 x" ≠ "" ∧
      checkFields ["a" ++ " " ++ "int8 x"] = Run.ok none ∧ ¬ Recognised "int8 x") ∧
    ("* x" ≠ "" ∧ Recognised "* x" ∧
      checkFields ["a" ++ " " ++ "* x"] = Run.ok (some FieldError.invalidStar)) := by
  decide

/-- C8, amended: for every list of lines of the form name, one space, type
name, where name and type name are non-empty and contain no space,
`checkFields` returns nil if and only if every type name is a key of the type
catalog or starts with `'*'` and has at least one further character; it
rejects `x float128`, `justOneToken`, the list `""`, `y int32` and `p *`, and
accepts `p *int32`. -/
theorem checkFields_accepts_iff (fields : List (String × String))
    (hform : ∀ nt ∈ fields,
      nt.1 ≠ "" ∧ ' ' ∉ nt.1.data ∧ nt.2 ≠ "" ∧ ' ' ∉ nt.2.data) :
    (checkFields (fields.map fun nt => nt.1 ++ " " ++ nt.2) = Run.ok none ↔
      ∀ nt ∈ fields, Recognised nt.2) ∧
    checkFields ["x float128"] = Run.ok (some (FieldError.unknownType "float128")) ∧
    checkFields ["justOneToken"] = Run.ok (some (FieldError.invalidField "justOneToken")) ∧
    checkFields ["", "y int32"] = Run.ok (some FieldError.emptyLine) ∧
    checkFields ["p *"] = Run.ok (some FieldError.invalidStar) ∧
    checkFields ["p *int32"] = Run.ok none := by
  refine ⟨?_, by decide, by decide, by decide, by decide, by decide⟩
  rw [checkFields_ok_iff, List.forall_mem_map]
  constructor
  · intro h nt hnt
    obtain ⟨_, hn, _, ht⟩ := hform nt hnt
    exact (offending_pair_iff nt.1 nt.2 hn ht).mp ((checkField_ok_iff _).mp (h nt hnt))
  · intro h nt hnt
    obtain ⟨_, hn, _, ht⟩ := hform nt hnt
    exact (checkField_ok_iff _).mpr ((offending_pair_iff nt.1 nt.2 hn ht).mpr (h nt hnt))

/-- Instance of `checkFields_accepts_iff` on three well-formed lines, which are
accepted. -/
theorem checkFields_accepts_iff_witness :
    (checkFields ([("a", "int8"), ("p", "*T"), ("s", "string")].map
        fun nt => nt.1 ++ " " ++ nt.2) = Run.ok none ↔
      ∀ nt ∈ [("a", "int8"), ("p", "*T"), ("s", "string")], Recognised nt.2) ∧
    checkFields ([("a", "int8"), ("p", "*T"), ("s", "string")].map
        fun nt => nt.1 ++ " " ++ nt.2) = Run.ok none :=
  ⟨(checkFields_accepts_iff [("a", "int8"), ("p", "*T"), ("s", "string")] (by decide)).1,
    by decide⟩

/-- Whenever `checkFields` returns an error, the error is the one that
belongs to the first offending line in list order: the empty-line error for
the empty line, the malformed-field error for a non-empty line without a
space, otherwise the bare `'*'` error when the second piece is `*` and the
unknown-type error when it is not; and no list that contains an empty line is
let through.  A panic is not covered: see `checkFields_panics_before_verdict`. -/
theorem checkFields_error_kind (fields : List String) :
    (∀ e, checkFields fields = Run.ok (some e) →
      ∃ pre line post, fields = pre ++ line :: post ∧ (∀ l ∈ pre, ¬ Offending l) ∧
        Offending line ∧ e = errorKind line) ∧
    ("" ∈ fields → checkFields fields ≠ Run.ok none) := by
  constructor
  · induction fields with
    | nil => intro e h; cases h
    | cons f rest ih =>
      intro e h
      rw [checkFields_cons] at h
      cases hf : checkField f with
      | ok r =>
        cases r with
        | none =>
          rw [hf] at h
          obtain ⟨pre, line, post, hsplit, hpre, hoff, he⟩ := ih e h
          refine ⟨f :: pre, line, post, by rw [hsplit]; rfl, ?_, hoff, he⟩
          intro l hl
          rcases List.mem_cons.mp hl with rfl | hl
          · exact (checkField_ok_iff l).mp hf
          · exact hpre l hl
        | some e' =>
          rw [hf] at h
          cases h
          obtain ⟨hoff, he⟩ := checkField_error f e hf
          exact ⟨[], f, rest, rfl, fun l hl => absurd hl (List.not_mem_nil l), hoff, he⟩
      | panic => rw [hf] at h; cases h
      | noFuel => rw [hf] at h; cases h
  · intro hmem hok
    have := (checkFields_ok_iff fields).mp hok "" hmem
    revert this; decide

/-- Instance of `checkFields_error_kind`: the first offending line of the list
is `b`, found before the empty line. -/
theorem checkFields_error_kind_witness :
    (∃ pre line post, ["a int8", "b", "", "x float128"] = pre ++ line :: post ∧
      (∀ l ∈ pre, ¬ Offending l) ∧ Offending line ∧
      FieldError.invalidField "b" = errorKind line) ∧
    checkFields ["a int8", "b", "", "x float128"] ≠ Run.ok none :=
  ⟨(checkFields_error_kind ["a int8", "b", "", "x float128"]).1 (FieldError.invalidField "b")
      (by decide),
    (checkFields_error_kind ["a int8", "b", "", "x float128"]).2 (by decide)⟩

/-- Where no line makes the check panic, every list that contains an empty
line is rejected with an error. -/
theorem checkFields_rejects_empty_line (fields : List String)
    (hnp : ∀ l ∈ fields, checkField l ≠ Run.panic) (hmem : "" ∈ fields) :
    ∃ e, checkFields fields = Run.ok (some e) := by
  induction fields with
  | nil => exact absurd hmem (List.not_mem_nil _)
  | cons f rest ih =>
    rw [checkFields_cons]
    rcases checkField_cases f with h | h | h
    · rw [h.1]
      have hne : f ≠ "" := fun hf => h.2 (Or.inl hf)
      have hrest : "" ∈ rest := by
        rcases List.mem_cons.mp hmem with hm | hm
        · exact absurd hm.symm hne
        · exact hm
      exact ih (fun l hl => hnp l (List.mem_cons_of_mem _ hl)) hrest
    · rw [h.1]
      exact ⟨_, rfl⟩
    · exact absurd h.1 (hnp f (List.mem_cons_self _ _))

/-- C9 fails on the code: in the list `a  int8`, `""` the first offending
line is `a  int8`, which is not empty and contains a space, and whose second
piece is empty, so the claim's error is the unknown-type error; the list also
contains an empty line, so the claim has it rejected.  On this list, and on
the list of its first line alone, `checkFields` returns no error: it panics
at `typeName[0]`. -/
theorem checkFields_panics_before_verdict :
    checkFields ["a  int8", ""] = Run.panic ∧
    checkFields ["a  int8"] = Run.panic ∧
    "" ∈ ["a  int8", ""] ∧
    Offending "a  int8" ∧ "a  int8" ≠ "" ∧ ' ' ∈ "a  int8".data ∧
    secondPiece "a  int8" = "" ∧
    errorKind "a  int8" = FieldError.unknownType "" := by
  refine ⟨by decide, by decide, by decide, Or.inr (Or.inr (by decide)), by decide, by decide,
    by decide, by decide⟩

/-- C10, as stated, fails: a tab is not a separator, so `a<TAB>int8` is
rejected as a malformed field, and on `a   int8` (three spaces) the second
piece is empty and `checkFields` panics, while `a int8` is accepted. -/
theorem checkFields_not_whitespace_tokens :
    checkFields ["a int8"] = Run.ok none ∧
    checkFields ["a\tint8"] = Run.ok (some (FieldError.invalidField "a\tint8")) ∧
    checkFields ["a   int8"] = Run.panic := by
  decide

/-- C10, amended: `checkFields` splits a line at every single space and reads
the second piece.  For every line made of a name without spaces, exactly one
space and a recognised type name without spaces it returns nil without a
run-time error; a line made of a name, a tab and a type name, none of them
with a space, is rejected as a malformed field. -/
theorem checkFields_single_space (name typeName : String) (hn : ' ' ∉ name.data)
    (ht : ' ' ∉ typeName.data) :
    (Recognised typeName → checkFields [name ++ " " ++ typeName] = Run.ok none) ∧
    checkFields [name ++ "\t" ++ typeName]
      = Run.ok (some (FieldError.invalidField (name ++ "\t" ++ typeName))) := by
  constructor
  · intro hrec
    rw [checkFields_ok_iff]
    intro f hf
    rw [List.mem_singleton.mp hf]
    exact (checkField_ok_iff _).mpr ((offending_pair_iff name typeName hn ht).mpr hrec)
  · have hdata : (name ++ "\t" ++ typeName).data = name.data ++ '\t' :: typeName.data := by
      simp [String.data_append]
    have hsp : ' ' ∉ (name ++ "\t" ++ typeName).data := by
      rw [hdata]
      intro h
      rcases List.mem_append.mp h with h | h
      · exact hn h
      · rcases List.mem_cons.mp h with h | h
        · exact absurd h (by decide)
        · exact ht h
    have hne : (name ++ "\t" ++ typeName).data.length ≠ 0 := by
      rw [hdata]; simp
    have hlen : (goSplit (name ++ "\t" ++ typeName)).length < 2 := by
      rw [goSplit, List.length_map]
      exact (splitSpace_length_lt_two _).mpr hsp
    rw [checkFields_cons]
    unfold checkField
    rw [if_neg hne, if_pos hlen]

/-- Instance of `checkFields_single_space` on the name `count` and the type
`uint16`. -/
theorem checkFields_single_space_witness :
    (Recognised "uint16" → checkFields ["count" ++ " " ++ "uint16"] = Run.ok none) ∧
    checkFields ["count" ++ "\t" ++ "uint16"]
      = Run.ok (some (FieldError.invalidField ("count" ++ "\t" ++ "uint16"))) :=
  checkFields_single_space "count" "uint16" (by decide) (by decide)


/-! ## Sizes of validated fields -/

theorem lookup_mem_keys (k : String) (v : Nat) :
    ∀ l : List (String × Nat), l.lookup k = some v → k ∈ l.map Prod.fst := by
  intro l
  induction l with
  | nil => intro h; simp at h
  | cons e es ih =>
    obtain ⟨a, b⟩ := e
    intro h
    rw [List.lookup_cons] at h
    cases hk : (k == a) with
    | true =>
      rw [List.map_cons, eq_of_beq hk]
      exact List.mem_cons_self _ _
    | false =>
      rw [hk] at h
      exact List.mem_cons_of_mem _ (ih h)

/-- No key of the type catalog starts with `'*'`. -/
theorem types_key_no_star (typeName : String) (v : Nat) (h : types typeName = some v) :
    typeName.data.head? ≠ some '*' := by
  have hall : ∀ k ∈ typesTable.map Prod.fst, k.data.head? ≠ some '*' := by decide
  exact hall typeName (lookup_mem_keys typeName v typesTable h)

/-- C11: if `checkFields` returns nil, then for every field of the list
`getSize` returns (no index is out of range); the size is the catalog size of
the type name when the type name is a catalog key, and the word size, 8, when
the type name starts with `'*'`, whatever follows the `'*'`; so the size is
one of 1, 2, 4, 8, 16. -/
theorem getSize_of_validated (fields : List String) (hv : checkFields fields = Run.ok none) :
    wordSize = 8 ∧
    ∀ f ∈ fields, ∃ s, getSize f = Run.ok s ∧
      (∀ v, types (secondPiece f) = some v → s = v) ∧
      ((secondPiece f).data.head? = some '*' → s = wordSize) ∧
      SizeClass s := by
  refine ⟨rfl, ?_⟩
  intro f hf
  have hok := (checkFields_ok_iff fields).mp hv f hf
  obtain ⟨s, hs, hcls⟩ := checkField_ok_getSize f hok
  refine ⟨s, hs, ?_, ?_, hcls⟩
  · intro v hty
    unfold getSize at hs
    unfold secondPiece at hty
    cases hp : (goSplit f)[1]? with
    | none => rw [hp] at hs; cases hs
    | some t =>
      rw [hp] at hs hty
      simp only [Option.getD_some] at hty
      simp only at hs
      have hstar := types_key_no_star t v hty
      cases hd : t.data with
      | nil => rw [hd] at hs; cases hs
      | cons c rest =>
        rw [hd] at hs hstar
        simp only at hs
        have hc : c ≠ '*' := by
          intro hc
          apply hstar
          rw [List.head?_cons, hc]
        rw [if_neg (fun h => hc h.1), hty] at hs
        simp only [Option.getD_some, Run.ok.injEq] at hs
        exact hs.symm
  · intro hstar
    have hrec : Recognised (secondPiece f) := by
      by_contra hcon
      exact ((checkField_ok_iff f).mp hok) (Or.inr (Or.inr hcon))
    have hlen : 1 < (secondPiece f).data.length := by
      rcases hrec with hrec | hrec
      · cases hty : types (secondPiece f) with
        | none => rw [hty] at hrec; exact absurd hrec (by decide)
        | some v => exact absurd hstar (types_key_no_star _ v hty)
      · exact hrec.2
    unfold getSize at hs
    unfold secondPiece at hstar hlen
    cases hp : (goSplit f)[1]? with
    | none => rw [hp] at hs; cases hs
    | some t =>
      rw [hp] at hs hstar hlen
      simp only [Option.getD_some] at hstar hlen
      simp only at hs
      cases hd : t.data with
      | nil => rw [hd] at hs; cases hs
      | cons c rest =>
        rw [hd] at hs hstar hlen
        simp only at hs
        have hc : c = '*' := by
          rw [List.head?_cons, Option.some.injEq] at hstar
          exact hstar
        rw [if_pos ⟨hc, hlen⟩] at hs
        simp only [Run.ok.injEq] at hs
        exact hs.symm

/-- Instance of `getSize_of_validated` on a catalog type, a pointer and the
16-byte complex type. -/
theorem getSize_of_validated_witness :
    wordSize = 8 ∧
    ∀ f ∈ ["a int16", "p *anything", "c complex128"], ∃ s, getSize f = Run.ok s ∧
      (∀ v, types (secondPiece f) = some v → s = v) ∧
      ((secondPiece f).data.head? = some '*' → s = wordSize) ∧
      SizeClass s :=
  getSize_of_validated ["a int16", "p *anything", "c complex128"] (by decide)

/-! ## More than 6 fields, and no field at all -/

/-- On more than 6 fields `calculateMemory` panics, whatever the fields. -/
theorem calculateMemory_panic_of_long (fields : List String) (h : 6 < fields.length) :
    calculateMemory fields = Run.panic := by
  unfold calculateMemory
  rw [if_pos h]

/-- C12 fails on the code: the seven fields `a int8`, ..., `g int8` are
accepted by `checkFields`, and `calculateMemory` panics on them, because
`make([]int, len(fields), 6)` has a length above its capacity. -/
theorem calculateMemory_seven_fields :
    checkFields ["a int8", "b int8", "c int8", "d int8", "e int8", "f int8", "g int8"]
      = Run.ok none ∧
    calculateMemory ["a int8", "b int8", "c int8", "d int8", "e int8", "f int8", "g int8"]
      = Run.panic := by
  decide

/-- With `k` at most 0, `generate` uses up every recursion budget: each call
makes the call `generate(k-1, s)` before anything else. -/
theorem generate_nonpos (fuel : Nat) :
    ∀ (k : Int) (p : List String × Top3), k ≤ 0 → generate fuel k p = Run.noFuel := by
  induction fuel with
  | zero => intro k p _; rfl
  | succ fuel ih =>
    intro k p hk
    obtain ⟨s, st⟩ := p
    have hne : ¬ k = 1 := by omega
    simp only [generate]
    rw [if_neg hne, ih (k - 1) (s, st) (by omega)]
    rfl

/-- C13 fails on the code: the empty field list is accepted by `checkFields`,
and on it `solveTetrisBruteForce` does not return within any recursion budget
(`generate(0, s)` calls `generate(-1, s)`, and so on); on the seven fields
`a int8`, ..., `g int8` it panics in `calculateMemory`. -/
theorem bruteForce_empty_diverges :
    checkFields [] = Run.ok none ∧
    (∀ fuel, solveTetrisBruteForce fuel [] = Run.noFuel) ∧
    solveTetrisBruteForce 7
      ["a int8", "b int8", "c int8", "d int8", "e int8", "f int8", "g int8"] = Run.panic := by
  refine ⟨rfl, ?_, by decide⟩
  intro fuel
  unfold solveTetrisBruteForce
  rw [generate_nonpos fuel _ _ (by simp)]
  rfl


/-! ## The greedy ordering has no padding between fields -/

theorem alignUp_of_dvd (off a : Nat) (h : a ∣ off) : alignUp off a = off := by
  unfold alignUp
  rw [if_pos (Nat.mod_eq_zero_of_dvd h)]

theorem specAlign_dvd_of_le (t s : Nat) (ht : SizeClass t) (hs : SizeClass s) (hle : t ≤ s) :
    specAlign t ∣ s := by
  rcases ht with rfl | rfl | rfl | rfl | rfl <;> rcases hs with rfl | rfl | rfl | rfl | rfl <;>
    first
      | exact absurd hle (by decide)
      | decide

/-- On sizes that never increase, starting at an offset that is a multiple of
every alignment to come, the loop of `calculateMemory` adds no padding before
any field. -/
theorem layoutLoop_sorted_mem (sizes : List Nat) :
    ∀ st : Layout, (∀ s ∈ sizes, SizeClass s) → LayoutInv st →
      sizes.Pairwise (fun a b => b ≤ a) → (∀ s ∈ sizes, specAlign s ∣ st.mem) →
      (layoutLoop st sizes).mem = st.mem + sizes.sum := by
  induction sizes with
  | nil => intro st _ _ _ _; simp [layoutLoop]
  | cons size rest ih =>
    intro st hcls hinv hpw hdvd
    have hs : SizeClass size := hcls size (List.mem_cons_self _ _)
    obtain ⟨hinv1, hmem1, _⟩ := layoutStep_spec st size hs hinv
    rw [alignUp_of_dvd _ _ (hdvd size (List.mem_cons_self _ _))] at hmem1
    have hloop : layoutLoop st (size :: rest) = layoutLoop (layoutStep st size) rest := rfl
    rw [hloop, ih (layoutStep st size) (fun s h => hcls s (List.mem_cons_of_mem _ h)) hinv1
      (List.pairwise_cons.mp hpw).2 ?_, hmem1, List.sum_cons, Nat.add_assoc]
    intro t ht
    rw [hmem1]
    exact Nat.dvd_add (hdvd t (List.mem_cons_of_mem _ ht))
      (specAlign_dvd_of_le t size (hcls t (List.mem_cons_of_mem _ ht)) hs
        ((List.pairwise_cons.mp hpw).1 t ht))

theorem maxAlign_perm (l₁ l₂ : List Nat) (h : l₁.Perm l₂) : maxAlign l₁ = maxAlign l₂ := by
  induction h with
  | nil => rfl
  | cons x _ ih => simp only [maxAlign, List.map_cons, List.foldr_cons] at ih ⊢; rw [ih]
  | swap x y l =>
    simp only [maxAlign, List.map_cons, List.foldr_cons]
    rw [← max_assoc, ← max_assoc, max_comm (min y 8) (min x 8)]
  | trans _ _ ih1 ih2 => exact ih1.trans ih2

theorem maxAlign_pos (sizes : List Nat) (hne : sizes ≠ []) (hcls : ∀ s ∈ sizes, SizeClass s) :
    1 ≤ maxAlign sizes := by
  cases sizes with
  | nil => exact absurd rfl hne
  | cons s rest =>
    have hmin : 1 ≤ min s 8 := by
      rcases hcls s (List.mem_cons_self _ _) with h1 | h1 | h1 | h1 | h1 <;> rw [h1] <;> decide
    simp only [maxAlign, List.map_cons, List.foldr_cons]
    exact le_trans hmin (le_max_left _ _)

theorem alignUp_max_one (sizes : List Nat) (hcls : ∀ s ∈ sizes, SizeClass s) :
    alignUp sizes.sum (max 1 (maxAlign sizes)) = alignUp sizes.sum (maxAlign sizes) := by
  cases sizes with
  | nil => rfl
  | cons s rest => rw [max_eq_right (maxAlign_pos (s :: rest) (by simp) hcls)]

/-- The value of `calculateMemory` on at most 6 fields with catalog sizes: the
final offset rounded up to a multiple of the largest alignment, where the
final offset is at least the sum of the sizes. -/
theorem calculateMemory_shape (p : List String) (hlen : p.length ≤ 6)
    (hv : ∀ f ∈ p, ∃ s, getSize f = Run.ok s ∧ SizeClass s) :
    ∃ mem, calculateMemory p = Run.ok (alignUp mem (max 1 (maxAlign (p.map fieldSize)))) ∧
      (p.map fieldSize).sum ≤ mem ∧
      ((p.map fieldSize).Pairwise (fun a b => b ≤ a) → mem = (p.map fieldSize).sum) := by
  obtain ⟨hsz, hcls⟩ := getSizes_of_forall₂ p _ (forall₂_fieldSize p hv)
  obtain ⟨hinv, _, hsum, hcm⟩ := layoutLoop_spec (p.map fieldSize) _ hcls layoutInv_init
  refine ⟨(layoutLoop { capMul := 1, cap := 0, mem := 0 } (p.map fieldSize)).mem, ?_, ?_, ?_⟩
  · rw [calculateMemory_eq_loop p _ hlen hsz, hinv.2, hcm]
  · simpa using hsum
  · intro hpw
    have := layoutLoop_sorted_mem (p.map fieldSize) _ hcls layoutInv_init hpw
      (fun s _ => Nat.dvd_zero _)
    simpa using this

/-- The greedy ordering is optimal on at most 6 fields with catalog sizes: its
`calculateMemory` value is the sum of the sizes rounded up to a multiple of
the largest alignment, and no permutation of the fields has a smaller
value. -/
theorem greedy_optimal_core (sortLong : List String → Run (List String))
    (fields : List String) (h6 : fields.length ≤ 6)
    (hv : ∀ f ∈ fields, ∃ s, getSize f = Run.ok s ∧ SizeClass s) :
    ∃ g, solveTetris sortLong fields = Run.ok g ∧ g.Perm fields ∧
      calculateMemory g
        = Run.ok (alignUp (fields.map fieldSize).sum (maxAlign (fields.map fieldSize))) ∧
      ∀ p : List String, p.Perm fields → ∃ mp, calculateMemory p = Run.ok mp ∧
        alignUp (fields.map fieldSize).sum (maxAlign (fields.map fieldSize)) ≤ mp := by
  have hcls : ∀ s ∈ fields.map fieldSize, SizeClass s :=
    (getSizes_of_forall₂ fields _ (forall₂_fieldSize fields hv)).2
  have hshape : ∀ p : List String, p.Perm fields →
      ∃ mem, calculateMemory p
          = Run.ok (alignUp mem (max 1 (maxAlign (fields.map fieldSize)))) ∧
        (fields.map fieldSize).sum ≤ mem ∧
        ((p.map fieldSize).Pairwise (fun a b => b ≤ a) → mem = (fields.map fieldSize).sum) := by
    intro p hp
    obtain ⟨mem, h1, h2, h3⟩ :=
      calculateMemory_shape p (by rw [hp.length_eq]; exact h6) (valid_of_perm fields p hv hp)
    have hperm : (p.map fieldSize).Perm (fields.map fieldSize) := hp.map _
    rw [maxAlign_perm _ _ hperm] at h1
    rw [hperm.sum_eq] at h2 h3
    exact ⟨mem, h1, h2, h3⟩
  obtain ⟨g, hg, hgperm, hsorted⟩ := solveTetris_spec sortLong fields h6 hv
  refine ⟨g, hg, hgperm, ?_, ?_⟩
  · obtain ⟨mem, h1, _, h3⟩ := hshape g hgperm
    rw [h1, h3 (List.pairwise_map.mpr hsorted), alignUp_max_one _ hcls]
  · intro p hp
    obtain ⟨mem, h1, h2, _⟩ := hshape p hp
    refine ⟨_, h1, ?_⟩
    rw [← alignUp_max_one _ hcls]
    have hpos : 0 < max 1 (maxAlign (fields.map fieldSize)) :=
      lt_of_lt_of_le Nat.zero_lt_one (le_max_left _ _)
    obtain ⟨hle, hdvd, _⟩ := alignUp_least mem _ hpos
    exact (alignUp_least (fields.map fieldSize).sum _ hpos).2.2 _ (le_trans h2 hle) hdvd

/-- C14: for every field list accepted by `checkFields` with at most 6 fields
and at most 2 distinct size classes, the `calculateMemory` value of the
ordering of `solveTetris` is at most the value of the given ordering. -/
theorem greedy_le_original (sortLong : List String → Run (List String))
    (fields : List String) (hv : checkFields fields = Run.ok none)
    (h6 : fields.length ≤ 6) (_h2 : (fields.map fieldSize).dedup.length ≤ 2) :
    ∃ g mg m, solveTetris sortLong fields = Run.ok g ∧ calculateMemory g = Run.ok mg ∧
      calculateMemory fields = Run.ok m ∧ mg ≤ m := by
  obtain ⟨g, hg, _, hmg, hmin⟩ :=
    greedy_optimal_core sortLong fields h6 (valid_of_checkFields fields hv)
  obtain ⟨m, hm, hle⟩ := hmin fields (List.Perm.refl _)
  exact ⟨g, _, m, hg, hmg, hm, hle⟩

/-- Instance of `greedy_le_original`: with the sizes 1 and 8 only, the order
byte, 8 bytes, byte, 8 bytes takes 32 bytes and the greedy order 24. -/
theorem greedy_le_original_witness :
    (∃ g mg m, solveTetris insertionSort ["a int8", "b int64", "c byte", "d *T"] = Run.ok g ∧
      calculateMemory g = Run.ok mg ∧
      calculateMemory ["a int8", "b int64", "c byte", "d *T"] = Run.ok m ∧ mg ≤ m) ∧
    calculateMemory ["a int8", "b int64", "c byte", "d *T"] = Run.ok 32 ∧
    calculateMemory ["b int64", "d *T", "a int8", "c byte"] = Run.ok 24 :=
  ⟨greedy_le_original insertionSort ["a int8", "b int64", "c byte", "d *T"] (by decide)
      (by decide) (by decide), by decide, by decide⟩

/-- For 1 to 6 validated fields the claim of C19 holds: the greedy ordering
takes the sum of the sizes rounded up to a multiple of the largest alignment,
no permutation of the fields takes less, and the first ordering of the
exhaustive search takes the same. -/
theorem greedy_optimal (sortLong : List String → Run (List String))
    (fields : List String) (fuel : Nat)
    (h1 : 1 ≤ fields.length) (h6 : fields.length ≤ 6)
    (hv : checkFields fields = Run.ok none) (hfuel : fields.length ≤ fuel) :
    ∃ g b0 b1 b2, solveTetris sortLong fields = Run.ok g ∧
      calculateMemory g
        = Run.ok (alignUp (fields.map fieldSize).sum (maxAlign (fields.map fieldSize))) ∧
      (∀ p : List String, p.Perm fields → ∃ mp, calculateMemory p = Run.ok mp ∧
        alignUp (fields.map fieldSize).sum (maxAlign (fields.map fieldSize)) ≤ mp) ∧
      solveTetrisBruteForce fuel fields = Run.ok [b0, b1, b2] ∧
      calculateMemory b0 = calculateMemory g := by
  obtain ⟨g, hg, hgperm, hmg, hmin⟩ :=
    greedy_optimal_core sortLong fields h6 (valid_of_checkFields fields hv)
  obtain ⟨st, hrun, hinv⟩ := solveTetrisBruteForce_inv fields fuel h1 h6 hv hfuel
  have hlen : 1 ≤ (heapGen (fields.length - 1) fields).1.length := by
    rw [heapGen_length]; exact Nat.factorial_pos _
  obtain ⟨hperm0, hmem0⟩ := hinv.first hlen
  obtain ⟨m0, hm0, hle0⟩ := hmin st.best0 hperm0
  obtain ⟨mg, hmg', hleg⟩ := hinv.least g (heapGen_complete fields g h1 h6 hgperm)
  refine ⟨g, st.best0, st.best1, st.best2, hg, hmg, hmin, hrun, ?_⟩
  rw [hmem0] at hm0
  rw [hmg] at hmg'
  simp only [Run.ok.injEq] at hm0 hmg'
  rw [hmem0, hmg]
  congr 1
  omega

/-- Instance of `greedy_optimal` on three validated fields. -/
theorem greedy_optimal_witness :
    ∃ g b0 b1 b2, solveTetris insertionSort ["a int8", "b int64", "c int16"] = Run.ok g ∧
      calculateMemory g
        = Run.ok (alignUp (["a int8", "b int64", "c int16"].map fieldSize).sum
            (maxAlign (["a int8", "b int64", "c int16"].map fieldSize))) ∧
      (∀ p : List String, p.Perm ["a int8", "b int64", "c int16"] →
        ∃ mp, calculateMemory p = Run.ok mp ∧
          alignUp (["a int8", "b int64", "c int16"].map fieldSize).sum
            (maxAlign (["a int8", "b int64", "c int16"].map fieldSize)) ≤ mp) ∧
      solveTetrisBruteForce 3 ["a int8", "b int64", "c int16"] = Run.ok [b0, b1, b2] ∧
      calculateMemory b0 = calculateMemory g :=
  greedy_optimal insertionSort ["a int8", "b int64", "c int16"] 3 (by decide) (by decide)
    (by decide) (by decide)

/-- C19 fails on the code for the empty field list, which is accepted by
`checkFields` and has at most 6 fields: the greedy ordering has the
`calculateMemory` value 0, but `solveTetrisBruteForce` does not return within
any recursion budget, so there is no first candidate of the exhaustive search
to compare with. -/
theorem greedy_bruteForce_empty :
    checkFields [] = Run.ok none ∧
    (∀ sortLong : List String → Run (List String), solveTetris sortLong [] = Run.ok []) ∧
    calculateMemory [] = Run.ok 0 ∧
    ∀ fuel, solveTetrisBruteForce fuel [] = Run.noFuel := by
  refine ⟨rfl, fun _ => rfl, by decide, ?_⟩
  intro fuel
  unfold solveTetrisBruteForce
  rw [generate_nonpos fuel _ _ (by simp)]
  rfl


/-! ## Heap's algorithm visits every permutation exactly once -/

theorem heapGen_head {α : Type} (m : Nat) :
    ∀ s : List α, ∃ tl, (heapGen m s).1 = s :: tl := by
  induction m with
  | zero => intro s; exact ⟨[], rfl⟩
  | succ m ih =>
    intro s
    obtain ⟨tl, htl⟩ := ih s
    refine ⟨tl ++ (heapLoop (heapGen m) (m + 2) 0 (m + 1) (heapGen m s).2).1, ?_⟩
    simp only [heapGen, htl, List.cons_append]

theorem heapGen_range_perm (n m : Nat) (hn : n ≤ 8) (hm : m + 1 = n)
    (h : covered (codeMask (heapGen m (List.range n)).1) (List.permutations' (List.range n))
      = true) :
    (heapGen m (List.range n)).1.Perm (List.permutations' (List.range n)) := by
  have hnodup : (List.permutations' (List.range n)).Nodup :=
    (List.permutations_perm_permutations' _).nodup_iff.mp
      (List.nodup_permutations _ (List.nodup_range n))
  have hsub : List.permutations' (List.range n) ⊆ (heapGen m (List.range n)).1 :=
    fun q hq => cover_of_covered n m hn h q (List.mem_permutations'.mp hq)
  have hlen : (heapGen m (List.range n)).1.length
      ≤ (List.permutations' (List.range n)).length := by
    rw [heapGen_length, ← (List.permutations_perm_permutations' _).length_eq,
      List.length_permutations, List.length_range, hm]
  exact ((List.subperm_of_subset hnodup hsub).perm_of_length_le hlen).symm

/-- On a slice of 1 to 6 elements the arrangements visited by Heap's
algorithm, as coded in `generate`, are the permutations of the slice, each
position-wise permutation exactly once. -/
theorem heapGen_perm_permutations (fields : List String) (h1 : 1 ≤ fields.length)
    (h6 : fields.length ≤ 6) :
    (heapGen (fields.length - 1) fields).1.Perm (List.permutations' fields) := by
  have hrange : (heapGen (fields.length - 1) (List.range fields.length)).1.Perm
      (List.permutations' (List.range fields.length)) := by
    obtain ⟨c1, c2, c3, c4, c5, c6⟩ := covered_upto_six
    have hcases : fields.length = 1 ∨ fields.length = 2 ∨ fields.length = 3 ∨
        fields.length = 4 ∨ fields.length = 5 ∨ fields.length = 6 := by omega
    rcases hcases with h | h | h | h | h | h <;> rw [h]
    · exact heapGen_range_perm 1 0 (by decide) rfl c1
    · exact heapGen_range_perm 2 1 (by decide) rfl c2
    · exact heapGen_range_perm 3 2 (by decide) rfl c3
    · exact heapGen_range_perm 4 3 (by decide) rfl c4
    · exact heapGen_range_perm 5 4 (by decide) rfl c5
    · exact heapGen_range_perm 6 5 (by decide) rfl c6
  have hgen := heapGen_map (fun i => fields.getD i "") (fields.length - 1)
    (List.range fields.length)
  rw [map_getD_range] at hgen
  have hmap := hrange.map (List.map fun i => fields.getD i "")
  rw [List.map_permutations', map_getD_range] at hmap
  rw [hgen]
  exact hmap


/-! ## The three smallest sizes, and the first arrangement of least size -/

theorem memOf_eq (p : List String) (m : Nat) (h : calculateMemory p = Run.ok m) :
    memOf p = m := by
  simp [memOf, h]

theorem smallestInv_init (n : Nat) : SmallestInv [] (initTop3 n) :=
  ⟨[], List.Perm.refl _, le_refl _, le_refl _, fun x hx => absurd hx (List.not_mem_nil x)⟩

theorem firstInv_init (n : Nat) : FirstInv [] (initTop3 n) :=
  Or.inl ⟨rfl, rfl⟩

/-- The branch `k == 1` of `generate` keeps in `min` the three smallest sizes
seen. -/
theorem record_smallest (seen : List (List String)) (st : Top3) (p : List String) (m : Nat)
    (hinv : SmallestInv seen st) (hm : calculateMemory p = Run.ok m) :
    ∃ st', record st p = Run.ok st' ∧ SmallestInv (seen ++ [p]) st' := by
  obtain ⟨rest, hperm, h01, h12, hrest⟩ := hinv
  have hperm' : ((seen ++ [p]).map memOf ++ [100000, 100000, 100000]).Perm
      (m :: st.min0 :: st.min1 :: st.min2 :: rest) := by
    rw [List.map_append, List.map_singleton, memOf_eq p m hm, List.append_assoc]
    exact List.perm_middle.trans (hperm.cons m)
  unfold record
  rw [hm, Run.ok_bind]
  by_cases c0 : m < st.min0
  · rw [if_pos c0]
    refine ⟨_, rfl, st.min2 :: rest, hperm', le_of_lt c0, h01, ?_⟩
    intro x hx
    rcases List.mem_cons.mp hx with rfl | hx
    · exact h12
    · exact le_trans h12 (hrest x hx)
  rw [if_neg c0]
  by_cases c1 : m < st.min1
  · rw [if_pos c1]
    refine ⟨_, rfl, st.min2 :: rest, hperm'.trans (List.Perm.swap _ _ _),
      Nat.le_of_not_lt c0, le_of_lt c1, ?_⟩
    intro x hx
    rcases List.mem_cons.mp hx with rfl | hx
    · exact h12
    · exact le_trans h12 (hrest x hx)
  rw [if_neg c1]
  by_cases c2 : m < st.min2
  · rw [if_pos c2]
    refine ⟨_, rfl, st.min2 :: rest, ?_, h01, Nat.le_of_not_lt c1, ?_⟩
    · exact hperm'.trans
        ((List.Perm.swap _ _ _).trans ((List.Perm.swap _ _ _).cons _))
    · intro x hx
      rcases List.mem_cons.mp hx with rfl | hx
      · exact le_of_lt c2
      · exact le_trans (le_of_lt c2) (hrest x hx)
  rw [if_neg c2]
  refine ⟨_, rfl, m :: rest, ?_, h01, h12, ?_⟩
  · exact hperm'.trans
      ((List.Perm.swap _ _ _).trans
        (((List.Perm.swap _ _ _).trans ((List.Perm.swap _ _ _).cons _)).cons _))
  · intro x hx
    rcases List.mem_cons.mp hx with rfl | hx
    · exact Nat.le_of_not_lt c2
    · exact hrest x hx

/-- The branch `k == 1` of `generate` replaces `best[0]` only by an
arrangement of strictly smaller size. -/
theorem record_first (seen : List (List String)) (st : Top3) (p : List String) (m : Nat)
    (hinv : FirstInv seen st) (hm : calculateMemory p = Run.ok m) (hlt : m < 100000) :
    ∃ st', record st p = Run.ok st' ∧ FirstInv (seen ++ [p]) st' := by
  have hmem : memOf p = m := memOf_eq p m hm
  unfold record
  rw [hm, Run.ok_bind]
  by_cases c0 : m < st.min0
  · rw [if_pos c0]
    refine ⟨_, rfl, Or.inr ⟨seen, [], rfl, hm, ?_, fun q hq => absurd hq (List.not_mem_nil q)⟩⟩
    intro q hq
    rcases hinv with ⟨hnil, _⟩ | ⟨pre, post, hsplit, hbest, hpre, hpost⟩
    · rw [hnil] at hq; exact absurd hq (List.not_mem_nil q)
    · rw [hsplit] at hq
      show m < memOf q
      rcases List.mem_append.mp hq with hq | hq
      · exact lt_trans c0 (hpre q hq)
      · rcases List.mem_cons.mp hq with hq | hq
        · rw [hq, memOf_eq _ _ hbest]; exact c0
        · exact lt_of_lt_of_le c0 (hpost q hq)
  rw [if_neg c0]
  have hkeep : ∀ st' : Top3, st'.best0 = st.best0 → st'.min0 = st.min0 →
      FirstInv (seen ++ [p]) st' := by
    intro st' hb hmin
    rcases hinv with ⟨_, hs⟩ | ⟨pre, post, hsplit, hbest, hpre, hpost⟩
    · omega
    · refine Or.inr ⟨pre, post ++ [p], ?_, ?_, ?_, ?_⟩
      · rw [hb, hsplit, List.append_assoc, List.cons_append]
      · rw [hb, hmin]; exact hbest
      · rw [hmin]; exact hpre
      · rw [hmin]
        intro q hq
        rcases List.mem_append.mp hq with hq | hq
        · exact hpost q hq
        · rw [List.mem_singleton.mp hq, hmem]; exact Nat.le_of_not_lt c0
  by_cases c1 : m < st.min1
  · rw [if_pos c1]; exact ⟨_, rfl, hkeep _ rfl rfl⟩
  rw [if_neg c1]
  by_cases c2 : m < st.min2
  · rw [if_pos c2]; exact ⟨_, rfl, hkeep _ rfl rfl⟩
  rw [if_neg c2]
  exact ⟨_, rfl, hkeep _ rfl rfl⟩

theorem recordAll_smallest_first (todo : List (List String)) :
    ∀ (seen : List (List String)) (st : Top3), SmallestInv seen st → FirstInv seen st →
      (∀ p ∈ todo, ∃ m, calculateMemory p = Run.ok m ∧ m < 100000) →
      ∃ st', recordAll st todo = Run.ok st' ∧ SmallestInv (seen ++ todo) st' ∧
        FirstInv (seen ++ todo) st' := by
  induction todo with
  | nil =>
    intro seen st h1 h2 _
    exact ⟨st, rfl, by rw [List.append_nil]; exact h1, by rw [List.append_nil]; exact h2⟩
  | cons p rest ih =>
    intro seen st h1 h2 hall
    obtain ⟨m, hm, hlt⟩ := hall p (List.mem_cons_self _ _)
    obtain ⟨st1, hrec, hs1⟩ := record_smallest seen st p m h1 hm
    obtain ⟨st1', hrec', hf1⟩ := record_first seen st p m h2 hm hlt
    have hst : st1' = st1 := by
      rw [hrec] at hrec'
      exact (Run.ok.inj hrec').symm
    rw [hst] at hf1
    obtain ⟨st2, hall2, hs2, hf2⟩ :=
      ih (seen ++ [p]) st1 hs1 hf1 (fun q hq => hall q (List.mem_cons_of_mem _ hq))
    refine ⟨st2, ?_, ?_, ?_⟩
    · rw [recordAll, hrec, Run.ok_bind, hall2]
    · rw [List.append_assoc] at hs2; exact hs2
    · rw [List.append_assoc] at hf2; exact hf2


/-- On 1 to 6 validated fields and with a recursion budget of at least the
number of fields, `generate` runs its branch `k == 1` on the arrangements of
Heap's algorithm, `solveTetrisBruteForce` returns `best`, and `best` and `min`
satisfy all three invariants for these arrangements. -/
theorem solveTetrisBruteForce_run (fields : List String) (fuel : Nat)
    (h1 : 1 ≤ fields.length) (h6 : fields.length ≤ 6)
    (hv : checkFields fields = Run.ok none) (hfuel : fields.length ≤ fuel) :
    ∃ st, solveTetrisBruteForce fuel fields = Run.ok [st.best0, st.best1, st.best2] ∧
      generate fuel (fields.length : Int) (fields, initTop3 fields.length)
        = Run.ok ((heapGen (fields.length - 1) fields).2, st) ∧
      TopInv fields (heapGen (fields.length - 1) fields).1 st ∧
      SmallestInv (heapGen (fields.length - 1) fields).1 st ∧
      FirstInv (heapGen (fields.length - 1) fields).1 st ∧
      ∀ p ∈ (heapGen (fields.length - 1) fields).1,
        p.Perm fields ∧ calculateMemory p = Run.ok (memOf p) ∧ memOf p < 100000 := by
  have hvalid := valid_of_checkFields fields hv
  have hall : ∀ p ∈ (heapGen (fields.length - 1) fields).1,
      p.Perm fields ∧ ∃ m, calculateMemory p = Run.ok m ∧ m < 100000 := by
    intro p hp
    have hperm := (heapGen_perm (fields.length - 1) fields).2 p hp
    exact ⟨hperm, calculateMemory_valid p (by rw [hperm.length_eq]; exact h6)
      (valid_of_perm fields p hvalid hperm)⟩
  obtain ⟨st, hrun, hinv⟩ :=
    recordAll_inv fields _ [] (initTop3 fields.length) (topInv_init fields _) hall
  obtain ⟨st', hrun', hsm, hfi⟩ :=
    recordAll_smallest_first (heapGen (fields.length - 1) fields).1 []
      (initTop3 fields.length) (smallestInv_init _) (firstInv_init _)
      (fun p hp => (hall p hp).2)
  have hst : st' = st := by
    rw [hrun] at hrun'
    exact (Run.ok.inj hrun').symm
  rw [hst] at hsm hfi
  have hk : (fields.length : Int) = ((fields.length - 1 + 1 : Nat) : Int) := by
    congr 1; omega
  have hgen : generate fuel (fields.length : Int) (fields, initTop3 fields.length)
      = Run.ok ((heapGen (fields.length - 1) fields).2, st) := by
    rw [hk, generate_eq_recordAll (fields.length - 1) fuel fields _ (by omega) (by omega), hrun]
    rfl
  refine ⟨st, ?_, hgen, by simpa using hinv, by simpa using hsm, by simpa using hfi, ?_⟩
  · unfold solveTetrisBruteForce
    rw [hgen]
    rfl
  · intro p hp
    obtain ⟨hperm, m, hm, hlt⟩ := hall p hp
    rw [memOf_eq p m hm]
    exact ⟨hperm, hm, hlt⟩

/-- C17: for 3 to 6 validated fields and a recursion budget of at least the
number of fields, the arrangements on which `generate` runs its branch
`k == 1` are a rearrangement of the list of all permutations of the fields
(each generated exactly once), and the sizes of the three orderings returned
by `solveTetrisBruteForce` are, in order, the three smallest elements, with
multiplicity, of the sizes of all these permutations. -/
theorem bruteForce_three_smallest (fields : List String) (fuel : Nat)
    (h3 : 3 ≤ fields.length) (h6 : fields.length ≤ 6)
    (hv : checkFields fields = Run.ok none) (hfuel : fields.length ≤ fuel) :
    ∃ b0 b1 b2 m0 m1 m2 rest,
      solveTetrisBruteForce fuel fields = Run.ok [b0, b1, b2] ∧
      calculateMemory b0 = Run.ok m0 ∧ calculateMemory b1 = Run.ok m1 ∧
      calculateMemory b2 = Run.ok m2 ∧
      (∀ st, generate fuel (fields.length : Int) (fields, st)
        = (recordAll st (heapGen (fields.length - 1) fields).1).bind fun st' =>
            Run.ok ((heapGen (fields.length - 1) fields).2, st')) ∧
      (heapGen (fields.length - 1) fields).1.Perm (List.permutations' fields) ∧
      (∀ p ∈ List.permutations' fields, calculateMemory p = Run.ok (memOf p)) ∧
      ((List.permutations' fields).map memOf).Perm (m0 :: m1 :: m2 :: rest) ∧
      m0 ≤ m1 ∧ m1 ≤ m2 ∧ ∀ x ∈ rest, m2 ≤ x := by
  obtain ⟨st, hrun, _, hinv, ⟨rest, hperm, h01, h12, hrest⟩, _, hall⟩ :=
    solveTetrisBruteForce_run fields fuel (by omega) h6 hv hfuel
  have hlen : 3 ≤ (heapGen (fields.length - 1) fields).1.length := by
    rw [heapGen_length]
    have hfac : (3 : Nat).factorial ≤ (fields.length - 1 + 1).factorial :=
      Nat.factorial_le (by omega)
    have h6 : (3 : Nat).factorial = 6 := by decide
    omega
  obtain ⟨hp0, hm0⟩ := hinv.first (by omega)
  obtain ⟨hp1, hm1⟩ := hinv.second (by omega)
  obtain ⟨hp2, hm2⟩ := hinv.third hlen
  have hvalid := valid_of_checkFields fields hv
  have hbound : ∀ (b : List String) (m : Nat), b.Perm fields →
      calculateMemory b = Run.ok m → m ≠ 100000 := by
    intro b m hb hm
    obtain ⟨m', hm', hlt⟩ := calculateMemory_valid b (by rw [hb.length_eq]; exact h6)
      (valid_of_perm fields b hvalid hb)
    rw [hm] at hm'
    have := Run.ok.inj hm'
    omega
  have hvisit := heapGen_perm_permutations fields (by omega) h6
  have hk : (fields.length : Int) = ((fields.length - 1 + 1 : Nat) : Int) := by
    congr 1; omega
  refine ⟨st.best0, st.best1, st.best2, st.min0, st.min1, st.min2,
    rest.filter (fun x => decide (x ≠ 100000)), hrun, hm0, hm1, hm2, ?_, hvisit, ?_, ?_,
    h01, h12, ?_⟩
  · intro st0
    rw [hk]
    exact generate_eq_recordAll (fields.length - 1) fuel fields st0 (by omega) (by omega)
  · intro p hp
    exact (hall p (hvisit.mem_iff.mpr hp)).2.1
  · have hf := hperm.filter (fun x => decide (x ≠ 100000))
    have hleft : List.filter (fun x => decide (x ≠ 100000))
        ((heapGen (fields.length - 1) fields).1.map memOf ++ [100000, 100000, 100000])
        = (heapGen (fields.length - 1) fields).1.map memOf := by
      rw [List.filter_append, List.filter_eq_self.mpr, show
        List.filter (fun x => decide (x ≠ 100000)) [100000, 100000, 100000] = [] from rfl,
        List.append_nil]
      intro x hx
      obtain ⟨p, hp, rfl⟩ := List.mem_map.mp hx
      have := (hall p hp).2.2
      exact decide_eq_true (by omega)
    have hright : List.filter (fun x => decide (x ≠ 100000))
        (st.min0 :: st.min1 :: st.min2 :: rest)
        = st.min0 :: st.min1 :: st.min2 :: rest.filter (fun x => decide (x ≠ 100000)) := by
      have n0 := hbound _ _ hp0 hm0
      have n1 := hbound _ _ hp1 hm1
      have n2 := hbound _ _ hp2 hm2
      simp [List.filter_cons, n0, n1, n2]
    rw [hleft, hright] at hf
    exact (hvisit.map memOf).symm.trans hf
  · intro x hx
    exact hrest x (List.mem_of_mem_filter hx)

/-- Instance of `bruteForce_three_smallest` on three validated fields. -/
theorem bruteForce_three_smallest_witness :
    ∃ b0 b1 b2 m0 m1 m2 rest,
      solveTetrisBruteForce 3 ["a int8", "b int64", "c int16"] = Run.ok [b0, b1, b2] ∧
      calculateMemory b0 = Run.ok m0 ∧ calculateMemory b1 = Run.ok m1 ∧
      calculateMemory b2 = Run.ok m2 ∧
      (∀ st, generate 3 (["a int8", "b int64", "c int16"].length : Int)
          (["a int8", "b int64", "c int16"], st)
        = (recordAll st
            (heapGen (["a int8", "b int64", "c int16"].length - 1)
              ["a int8", "b int64", "c int16"]).1).bind fun st' =>
            Run.ok ((heapGen (["a int8", "b int64", "c int16"].length - 1)
              ["a int8", "b int64", "c int16"]).2, st')) ∧
      (heapGen (["a int8", "b int64", "c int16"].length - 1)
        ["a int8", "b int64", "c int16"]).1.Perm
          (List.permutations' ["a int8", "b int64", "c int16"]) ∧
      (∀ p ∈ List.permutations' ["a int8", "b int64", "c int16"],
        calculateMemory p = Run.ok (memOf p)) ∧
      ((List.permutations' ["a int8", "b int64", "c int16"]).map memOf).Perm
        (m0 :: m1 :: m2 :: rest) ∧
      m0 ≤ m1 ∧ m1 ≤ m2 ∧ ∀ x ∈ rest, m2 ≤ x :=
  bruteForce_three_smallest ["a int8", "b int64", "c int16"] 3 (by decide) (by decide)
    (by decide) (by decide)

/-- C18: for 1 to 6 validated fields and a recursion budget of at least the
number of fields, the first ordering returned by `solveTetrisBruteForce` is
the earliest of the arrangements visited by `generate` that has the least
size over all permutations of the fields: every arrangement visited before it
is strictly larger.  When the input ordering has the least size, the first
ordering returned is the input ordering. -/
theorem bruteForce_first_found (fields : List String) (fuel : Nat)
    (h1 : 1 ≤ fields.length) (h6 : fields.length ≤ 6)
    (hv : checkFields fields = Run.ok none) (hfuel : fields.length ≤ fuel) :
    ∃ b0 b1 b2 m pre post,
      solveTetrisBruteForce fuel fields = Run.ok [b0, b1, b2] ∧
      (∀ st, generate fuel (fields.length : Int) (fields, st)
        = (recordAll st (heapGen (fields.length - 1) fields).1).bind fun st' =>
            Run.ok ((heapGen (fields.length - 1) fields).2, st')) ∧
      (heapGen (fields.length - 1) fields).1 = pre ++ b0 :: post ∧
      calculateMemory b0 = Run.ok m ∧
      (∀ p : List String, p.Perm fields → ∃ mp, calculateMemory p = Run.ok mp ∧ m ≤ mp) ∧
      (∀ p ∈ pre, ∃ mp, calculateMemory p = Run.ok mp ∧ m < mp) ∧
      (calculateMemory fields = Run.ok m → b0 = fields) := by
  obtain ⟨st, hrun, _, hinv, _, hfirst, hall⟩ :=
    solveTetrisBruteForce_run fields fuel h1 h6 hv hfuel
  obtain ⟨tl, htl⟩ := heapGen_head (fields.length - 1) fields
  have hk : (fields.length : Int) = ((fields.length - 1 + 1 : Nat) : Int) := by
    congr 1; omega
  rcases hfirst with ⟨hnil, _⟩ | ⟨pre, post, hsplit, hbest, hpre, _⟩
  · rw [htl] at hnil; cases hnil
  have hpre' : ∀ p ∈ pre, ∃ mp, calculateMemory p = Run.ok mp ∧ st.min0 < mp := by
    intro p hp
    have hmem : p ∈ (heapGen (fields.length - 1) fields).1 := by
      rw [hsplit]; exact List.mem_append_left _ hp
    exact ⟨memOf p, (hall p hmem).2.1, hpre p hp⟩
  refine ⟨st.best0, st.best1, st.best2, st.min0, pre, post, hrun, ?_, hsplit, hbest,
    fun p hp => hinv.least p (heapGen_complete fields p h1 h6 hp), hpre', ?_⟩
  · intro st0
    rw [hk]
    exact generate_eq_recordAll (fields.length - 1) fuel fields st0 (by omega) (by omega)
  · intro hfields
    rw [htl] at hsplit
    cases pre with
    | nil =>
      rw [List.nil_append] at hsplit
      exact (List.cons.inj hsplit).1.symm
    | cons x pre' =>
      rw [List.cons_append] at hsplit
      have hx : x = fields := (List.cons.inj hsplit).1.symm
      obtain ⟨mp, hmp, hlt⟩ := hpre' x (List.mem_cons_self _ _)
      rw [hx, hfields] at hmp
      have := Run.ok.inj hmp
      omega

/-- Instance of `bruteForce_first_found` on three validated fields. -/
theorem bruteForce_first_found_witness :
    ∃ b0 b1 b2 m pre post,
      solveTetrisBruteForce 3 ["b int64", "c int16", "a int8"] = Run.ok [b0, b1, b2] ∧
      (∀ st, generate 3 (["b int64", "c int16", "a int8"].length : Int)
          (["b int64", "c int16", "a int8"], st)
        = (recordAll st
            (heapGen (["b int64", "c int16", "a int8"].length - 1)
              ["b int64", "c int16", "a int8"]).1).bind fun st' =>
            Run.ok ((heapGen (["b int64", "c int16", "a int8"].length - 1)
              ["b int64", "c int16", "a int8"]).2, st')) ∧
      (heapGen (["b int64", "c int16", "a int8"].length - 1)
        ["b int64", "c int16", "a int8"]).1 = pre ++ b0 :: post ∧
      calculateMemory b0 = Run.ok m ∧
      (∀ p : List String, p.Perm ["b int64", "c int16", "a int8"] →
        ∃ mp, calculateMemory p = Run.ok mp ∧ m ≤ mp) ∧
      (∀ p ∈ pre, ∃ mp, calculateMemory p = Run.ok mp ∧ m < mp) ∧
      (calculateMemory ["b int64", "c int16", "a int8"] = Run.ok m →
        b0 = ["b int64", "c int16", "a int8"]) :=
  bruteForce_first_found ["b int64", "c int16", "a int8"] 3 (by decide) (by decide)
    (by decide) (by decide)

end Tetris

namespace topWords

/-! ## The map `frequency` -/

theorem bump_keys (word : String) :
    ∀ m : List (String × Nat),
      (bump m word).map Prod.fst
        = if word ∈ m.map Prod.fst then m.map Prod.fst else m.map Prod.fst ++ [word] := by
  intro m
  induction m with
  | nil => simp [bump]
  | cons e rest ih =>
    obtain ⟨key, count⟩ := e
    by_cases hk : key = word
    · simp [bump, hk]
    · have hk' : ¬ word = key := fun h => hk h.symm
      simp only [bump, if_neg hk, List.map_cons, ih, List.mem_cons, hk', false_or]
      split_ifs <;> simp

theorem countOf_cons (key : String) (count : Nat) (rest : List (String × Nat)) (x : String) :
    countOf ((key, count) :: rest) x = if x = key then count else countOf rest x := by
  unfold countOf
  rw [List.lookup_cons]
  by_cases h : x = key
  · rw [if_pos h, h]; simp
  · rw [if_neg h]
    have : (x == key) = false := by simpa using h
    rw [this]

theorem countOf_bump (word x : String) :
    ∀ m : List (String × Nat),
      countOf (bump m word) x = countOf m x + if x = word then 1 else 0 := by
  intro m
  induction m with
  | nil =>
    simp only [bump, countOf_cons]
    split_ifs <;> simp [countOf]
  | cons e rest ih =>
    obtain ⟨key, count⟩ := e
    by_cases hk : key = word
    · simp only [bump, if_pos hk, countOf_cons]
      by_cases hx : x = key
      · rw [if_pos hx, if_pos hx, if_pos (hx.trans hk)]
      · rw [if_neg hx, if_neg hx, if_neg (fun h => hx (h.trans hk.symm)), Nat.add_zero]
    · simp only [bump, if_neg hk, countOf_cons, ih]
      by_cases hx : x = key
      · rw [if_pos hx, if_pos hx, if_neg (fun h => hk (hx.symm.trans h)), Nat.add_zero]
      · rw [if_neg hx, if_neg hx]

theorem foldl_bump (words : List String) :
    ∀ m : List (String × Nat), (m.map Prod.fst).Nodup →
      ((words.foldl bump m).map Prod.fst).Nodup ∧
      (∀ x, x ∈ (words.foldl bump m).map Prod.fst ↔ x ∈ m.map Prod.fst ∨ x ∈ words) ∧
      ∀ x, countOf (words.foldl bump m) x = countOf m x + words.count x := by
  induction words with
  | nil => intro m h; simp [h]
  | cons w ws ih =>
    intro m h
    have hnd : ((bump m w).map Prod.fst).Nodup := by
      rw [bump_keys]
      split_ifs with hw
      · exact h
      · exact List.Nodup.append h (List.nodup_singleton w) (by simpa using hw)
    obtain ⟨h1, h2, h3⟩ := ih (bump m w) hnd
    refine ⟨h1, ?_, ?_⟩
    · intro x
      rw [List.foldl_cons, h2, bump_keys]
      split_ifs with hw
      · constructor
        · rintro (hx | hx)
          · exact Or.inl hx
          · exact Or.inr (List.mem_cons_of_mem _ hx)
        · rintro (hx | hx)
          · exact Or.inl hx
          · rcases List.mem_cons.mp hx with rfl | hx
            · exact Or.inl hw
            · exact Or.inr hx
      · simp only [List.mem_append, List.mem_singleton, List.mem_cons]
        tauto
    · intro x
      rw [List.foldl_cons, h3, countOf_bump, List.count_cons]
      by_cases hx : x = w
      · rw [if_pos hx, hx]; simp; omega
      · rw [if_neg hx]
        have : (w == x) = false := by simpa using fun h => hx h.symm
        simp [this]

theorem countOf_of_mem :
    ∀ m : List (String × Nat), (m.map Prod.fst).Nodup → ∀ e ∈ m, countOf m e.1 = e.2 := by
  intro m
  induction m with
  | nil => intro _ e he; exact absurd he (List.not_mem_nil e)
  | cons e0 rest ih =>
    obtain ⟨key, count⟩ := e0
    intro hnd e he
    rw [List.map_cons, List.nodup_cons] at hnd
    rw [countOf_cons]
    rcases List.mem_cons.mp he with rfl | he
    · rw [if_pos rfl]
    · have hne : e.1 ≠ key := by
        intro h
        apply hnd.1
        exact List.mem_map.mpr ⟨e, he, h⟩
      rw [if_neg hne]
      exact ih hnd.2 e he

/-- The map built by `TopWords` has pairwise distinct keys, its keys are the
lower-cased matches, and the count of a key is the number of its occurrences
among the lower-cased matches. -/
theorem buildFrequency_spec (s : String) :
    FreqOK (buildFrequency (findAllWords s)) ∧
    (∀ x, x ∈ (buildFrequency (findAllWords s)).map Prod.fst ↔ x ∈ lowerWords s) ∧
    ∀ e ∈ buildFrequency (findAllWords s), e.2 = (lowerWords s).count e.1 := by
  have hfold : buildFrequency (findAllWords s) = (lowerWords s).foldl bump [] := by
    unfold buildFrequency lowerWords
    rw [List.foldl_map]
  obtain ⟨h1, h2, h3⟩ := foldl_bump (lowerWords s) [] (by simp)
  rw [hfold]
  have hcount : ∀ e ∈ (lowerWords s).foldl bump [], e.2 = (lowerWords s).count e.1 := by
    intro e he
    rw [← countOf_of_mem _ h1 e he, h3]
    simp [countOf]
  refine ⟨⟨h1, ?_⟩, ?_, hcount⟩
  · intro e he
    rw [hcount e he]
    have hmem : e.1 ∈ lowerWords s := by
      have := (h2 e.1).mp (List.mem_map_of_mem _ he)
      simpa using this
    exact List.count_pos_iff.mpr hmem
  · intro x
    rw [h2]; simp

/-! ## One pass over the map -/

theorem pickMax_foldl (pass : List (String × Nat)) :
    ∀ acc : Nat × String,
      acc.1 ≤ (pass.foldl (fun acc entry =>
          if acc.1 < entry.2 then (entry.2, entry.1) else acc) acc).1 ∧
      (∀ e ∈ pass, e.2 ≤ (pass.foldl (fun acc entry =>
          if acc.1 < entry.2 then (entry.2, entry.1) else acc) acc).1) ∧
      (pass.foldl (fun acc entry =>
          if acc.1 < entry.2 then (entry.2, entry.1) else acc) acc = acc ∨
        ∃ e ∈ pass, pass.foldl (fun acc entry =>
          if acc.1 < entry.2 then (entry.2, entry.1) else acc) acc = (e.2, e.1)) := by
  induction pass with
  | nil => intro acc; simp
  | cons e rest ih =>
    intro acc
    rw [List.foldl_cons]
    by_cases h : acc.1 < e.2
    · rw [if_pos h]
      obtain ⟨h1, h2, h3⟩ := ih (e.2, e.1)
      refine ⟨le_trans (le_of_lt h) h1, ?_, ?_⟩
      · intro x hx
        rcases List.mem_cons.mp hx with rfl | hx
        · exact h1
        · exact h2 x hx
      · right
        rcases h3 with h3 | ⟨x, hx, h3⟩
        · exact ⟨e, List.mem_cons_self _ _, h3⟩
        · exact ⟨x, List.mem_cons_of_mem _ hx, h3⟩
    · rw [if_neg h]
      obtain ⟨h1, h2, h3⟩ := ih acc
      refine ⟨h1, ?_, ?_⟩
      · intro x hx
        rcases List.mem_cons.mp hx with rfl | hx
        · exact le_trans (Nat.le_of_not_lt h) h1
        · exact h2 x hx
      · rcases h3 with h3 | ⟨x, hx, h3⟩
        · exact Or.inl h3
        · exact Or.inr ⟨x, List.mem_cons_of_mem _ hx, h3⟩

/-- A pass over a non-empty map with positive counts ends with an entry of
the map whose count is the largest. -/
theorem pickMax_spec (pass : List (String × Nat)) (hne : pass ≠ [])
    (hpos : ∀ e ∈ pass, 1 ≤ e.2) :
    ((pickMax pass).2, (pickMax pass).1) ∈ pass ∧ ∀ e ∈ pass, e.2 ≤ (pickMax pass).1 := by
  obtain ⟨_, h2, h3⟩ := pickMax_foldl pass (0, "")
  refine ⟨?_, h2⟩
  rcases h3 with h3 | ⟨e, he, h3⟩
  · exfalso
    obtain ⟨e, he⟩ := List.exists_mem_of_ne_nil pass hne
    have h4 := h2 e he
    have h5 := hpos e he
    rw [h3] at h4
    simp only at h4
    omega
  · unfold pickMax
    rw [h3]
    exact he


/-! ## The selection loop -/

theorem deleteKey_perm :
    ∀ m : List (String × Nat), (m.map Prod.fst).Nodup → ∀ e ∈ m,
      m.Perm (e :: deleteKey m e.1) := by
  intro m
  induction m with
  | nil => intro _ e he; exact absurd he (List.not_mem_nil e)
  | cons e0 rest ih =>
    intro hnd e he
    rw [List.map_cons, List.nodup_cons] at hnd
    by_cases hk : e0.1 = e.1
    · have he0 : e = e0 := by
        rcases List.mem_cons.mp he with h | h
        · exact h
        · exact absurd (List.mem_map.mpr ⟨e, h, hk.symm⟩) hnd.1
      have hrest : deleteKey rest e.1 = rest := by
        unfold deleteKey
        refine List.filter_eq_self.mpr ?_
        intro x hx
        refine decide_eq_true ?_
        intro hxe
        exact hnd.1 (List.mem_map.mpr ⟨x, hx, hxe.trans hk.symm⟩)
      have hdel : deleteKey (e0 :: rest) e.1 = deleteKey rest e.1 := by
        unfold deleteKey
        rw [List.filter_cons_of_neg (by simpa using hk)]
      rw [hdel, hrest, he0]
    · have hmem : e ∈ rest := by
        rcases List.mem_cons.mp he with h | h
        · exact absurd (by rw [h]) hk
        · exact h
      have hdel : deleteKey (e0 :: rest) e.1 = e0 :: deleteKey rest e.1 := by
        unfold deleteKey
        rw [List.filter_cons_of_pos (by simpa using hk)]
      rw [hdel]
      exact ((ih hnd.2 e hmem).cons e0).trans (List.Perm.swap _ _ _)

theorem freqOK_deleteKey (m : List (String × Nat)) (top : String) (h : FreqOK m) :
    FreqOK (deleteKey m top) := by
  refine ⟨List.Nodup.sublist ((List.filter_sublist m).map Prod.fst) h.1, ?_⟩
  intro e he
  exact h.2 e (List.mem_of_mem_filter he)

theorem selectLoop_eq (order : Nat → List (String × Nat) → List (String × Nat)) :
    ∀ (remaining i : Nat) (frequency : List (String × Nat)) (words : List String),
      selectLoop order i remaining frequency words
        = words ++ selectFrom order i remaining frequency := by
  intro remaining
  induction remaining with
  | zero => intro i frequency words; simp [selectLoop, selectFrom]
  | succ r ih =>
    intro i frequency words
    simp only [selectLoop, selectFrom, ih, List.append_assoc, List.singleton_append]

/-- The words chosen by `k` passes over a map of at least `k` entries: the
keys of `k` entries of the map, with counts that never increase, and no
entry left in the map has a larger count than a chosen one. -/
theorem selectFrom_spec (order : Nat → List (String × Nat) → List (String × Nat))
    (horder : ∀ i m, (order i m).Perm m) :
    ∀ (k i : Nat) (frequency : List (String × Nat)), FreqOK frequency → k ≤ frequency.length →
      ∃ chosen rest, frequency.Perm (chosen ++ rest) ∧
        selectFrom order i k frequency = chosen.map Prod.fst ∧ chosen.length = k ∧
        chosen.Pairwise (fun a b => b.2 ≤ a.2) ∧ ∀ a ∈ chosen, ∀ b ∈ rest, b.2 ≤ a.2 := by
  intro k
  induction k with
  | zero =>
    intro i frequency _ _
    exact ⟨[], frequency, List.Perm.refl _, rfl, rfl, List.Pairwise.nil,
      fun a ha => absurd ha (List.not_mem_nil a)⟩
  | succ k ih =>
    intro i frequency hok hlen
    have hperm := horder i frequency
    have hne : order i frequency ≠ [] := by
      intro h
      have := hperm.length_eq
      rw [h] at this
      simp only [List.length_nil] at this
      omega
    obtain ⟨hmem, hmax⟩ := pickMax_spec (order i frequency) hne
      (fun e he => hok.2 e (hperm.mem_iff.mp he))
    have hmem' := hperm.mem_iff.mp hmem
    have hdel := deleteKey_perm frequency hok.1 _ hmem'
    simp only at hdel
    have hlen' : k ≤ (deleteKey frequency (pickMax (order i frequency)).2).length := by
      have := hdel.length_eq
      simp only [List.length_cons] at this
      omega
    obtain ⟨chosen, rest, hp, hsel, hcl, hpw, hrest⟩ :=
      ih (i + 1) (deleteKey frequency (pickMax (order i frequency)).2)
        (freqOK_deleteKey _ _ hok) hlen'
    have hle : ∀ b ∈ chosen ++ rest, b.2 ≤ (pickMax (order i frequency)).1 := by
      intro b hb
      have h1 : b ∈ deleteKey frequency (pickMax (order i frequency)).2 := hp.mem_iff.mpr hb
      exact hmax b (hperm.mem_iff.mpr (List.mem_of_mem_filter h1))
    refine ⟨((pickMax (order i frequency)).2, (pickMax (order i frequency)).1) :: chosen, rest,
      ?_, ?_, ?_, ?_, ?_⟩
    · exact hdel.trans (hp.cons _)
    · simp only [selectFrom, hsel, List.map_cons]
    · simp only [List.length_cons, hcl]
    · refine List.pairwise_cons.mpr ⟨?_, hpw⟩
      intro b hb
      exact hle b (List.mem_append_left _ hb)
    · intro a ha b hb
      rcases List.mem_cons.mp ha with rfl | ha
      · exact hle b (List.mem_append_right _ hb)
      · exact hrest a ha b hb

/-- What `TopWords` returns for a positive `n`, whatever the order of the
passes over the map. -/
theorem topWords_spec (order : Nat → List (String × Nat) → List (String × Nat))
    (horder : ∀ i m, (order i m).Perm m) (s : String) (n : Int) (hn : 0 < n) :
    ∃ chosen rest, (buildFrequency (findAllWords s)).Perm (chosen ++ rest) ∧
      TopWords order s n = chosen.map Prod.fst ∧
      chosen.length = min n.toNat (buildFrequency (findAllWords s)).length ∧
      chosen.Pairwise (fun a b => b.2 ≤ a.2) ∧ ∀ a ∈ chosen, ∀ b ∈ rest, b.2 ≤ a.2 := by
  have hk : (if ((buildFrequency (findAllWords s)).length : Int) < n
      then (buildFrequency (findAllWords s)).length else n.toNat)
      = min n.toNat (buildFrequency (findAllWords s)).length := by
    split_ifs with h <;> omega
  obtain ⟨chosen, rest, h1, h2, h3, h4, h5⟩ :=
    selectFrom_spec order horder (min n.toNat (buildFrequency (findAllWords s)).length) 0
      (buildFrequency (findAllWords s)) (buildFrequency_spec s).1 (Nat.min_le_right _ _)
  refine ⟨chosen, rest, h1, ?_, h3, h4, h5⟩
  unfold TopWords
  rw [if_neg (by omega)]
  simp only [hk, selectLoop_eq, List.nil_append]
  exact h2

/-- The number of keys of the map is the number of distinct lower-cased
matches. -/
theorem buildFrequency_length (s : String) :
    (buildFrequency (findAllWords s)).length = (lowerWords s).dedup.length := by
  obtain ⟨hok, hkeys, _⟩ := buildFrequency_spec s
  have hperm : ((buildFrequency (findAllWords s)).map Prod.fst).Perm (lowerWords s).dedup :=
    (List.perm_ext_iff_of_nodup hok.1 (List.nodup_dedup _)).mpr
      (fun x => (hkeys x).trans List.mem_dedup.symm)
  rw [← hperm.length_eq, List.length_map]


/-! ## Lower case -/

/-- Lower-casing an ASCII letter gives a lower-case letter. -/
theorem toLower_isLower (c : Char) (h : c.isAlpha = true) : c.toLower.isLower = true := by
  by_cases hu : c.isUpper = true
  · have hc : c = Char.ofNat c.toNat := (Char.ofNat_toNat c).symm
    have hr : 65 ≤ c.toNat ∧ c.toNat ≤ 90 := by
      simp only [Char.isUpper, Bool.and_eq_true, decide_eq_true_eq, UInt32.le_def,
        ge_iff_le] at hu
      exact ⟨hu.1, hu.2⟩
    obtain ⟨h1, h2⟩ := hr
    generalize c.toNat = k at hc h1 h2
    subst hc
    interval_cases k <;> decide
  · have hl : c.isLower = true := by
      simp only [Char.isAlpha, Bool.or_eq_true] at h
      rcases h with h | h
      · exact absurd h hu
      · exact h
    have : c.toLower = c := by
      have hr : ¬ (65 ≤ c.toNat ∧ c.toNat ≤ 90) := by
        simp only [Char.isLower, Bool.and_eq_true, decide_eq_true_eq, UInt32.le_def,
          ge_iff_le] at hl
        intro hh
        have h3 : (97 : UInt32).val.val ≤ c.val.val.val := hl.1
        have h4 : c.toNat = c.val.val.val := rfl
        have h5 : (97 : UInt32).val.val = 97 := rfl
        rw [h5] at h3
        omega
      unfold Char.toLower
      simp only [ge_iff_le]
      rw [if_neg hr]
    rw [this]; exact hl

/-- Every character of a lower-cased match is a lower-case letter. -/
theorem lowerWords_isLower (s : String) :
    ∀ w ∈ lowerWords s, ∀ c ∈ w.data, c.isLower = true := by
  intro w hw c hc
  obtain ⟨v, hv, rfl⟩ := List.mem_map.mp hw
  obtain ⟨run, hrun, rfl⟩ := List.mem_map.mp hv
  have hall := (List.mem_filter.mp hrun).2
  obtain ⟨c0, hc0, rfl⟩ := List.mem_map.mp hc
  exact toLower_isLower c0 (List.all_eq_true.mp hall c0 hc0)

/-! ## The claims about `TopWords` -/

/-- C15: `TopWords(s, n)` returns the empty list when `n <= 0`; for positive
`n` it returns exactly `min(n, d)` pairwise distinct words, each a lower-cased
match of the pattern made of lower-case letters only, where `d` is the number
of distinct lower-cased matches
(all `d` of them when `n` is at least `d`), whatever the order of the passes
over the map; texts without an alphabetic word give the empty list. -/
theorem topWords_count (order : Nat → List (String × Nat) → List (String × Nat))
    (horder : ∀ i m, (order i m).Perm m) (s : String) (n : Int) :
    (n ≤ 0 → TopWords order s n = []) ∧
    (0 < n →
      (TopWords order s n).length = min n.toNat (lowerWords s).dedup.length ∧
      (TopWords order s n).Nodup ∧
      (∀ w ∈ TopWords order s n, w ∈ lowerWords s ∧ ∀ c ∈ w.data, c.isLower = true) ∧
      ((lowerWords s).dedup.length ≤ n.toNat →
        (TopWords order s n).Perm (lowerWords s).dedup)) ∧
    TopWords order "" 1 = [] ∧ TopWords order "    " 3 = [] ∧
    TopWords order "321 213 903 2111" 3 = [] := by
  have hgen : ∀ (t : String) (k : Int), 0 < k →
      (TopWords order t k).length = min k.toNat (lowerWords t).dedup.length ∧
      (TopWords order t k).Nodup ∧
      (∀ w ∈ TopWords order t k, w ∈ lowerWords t ∧ ∀ c ∈ w.data, c.isLower = true) ∧
      ((lowerWords t).dedup.length ≤ k.toNat →
        (TopWords order t k).Perm (lowerWords t).dedup) := by
    intro t k hk
    obtain ⟨chosen, rest, hperm, hres, hlen, _, _⟩ := topWords_spec order horder t k hk
    obtain ⟨hok, hkeys, _⟩ := buildFrequency_spec t
    have hkperm : ((buildFrequency (findAllWords t)).map Prod.fst).Perm
        (chosen.map Prod.fst ++ rest.map Prod.fst) := by
      rw [← List.map_append]; exact hperm.map _
    have hnodup : (chosen.map Prod.fst).Nodup :=
      List.Nodup.of_append_left (hkperm.nodup_iff.mp hok.1)
    have hsub : ∀ w ∈ chosen.map Prod.fst, w ∈ lowerWords t := by
      intro w hw
      exact (hkeys w).mp (hkperm.mem_iff.mpr (List.mem_append_left _ hw))
    have hlen' : (chosen.map Prod.fst).length = min k.toNat (lowerWords t).dedup.length := by
      rw [List.length_map, hlen, buildFrequency_length]
    rw [hres]
    refine ⟨hlen', hnodup, fun w hw => ⟨hsub w hw, lowerWords_isLower t w (hsub w hw)⟩, ?_⟩
    intro hd
    refine (List.subperm_of_subset hnodup ?_).perm_of_length_le ?_
    · intro w hw; exact List.mem_dedup.mpr (hsub w hw)
    · rw [hlen']; omega
  have hempty : ∀ (t : String) (k : Int), 0 < k → (lowerWords t).dedup.length = 0 →
      TopWords order t k = [] := by
    intro t k hk hd
    have := (hgen t k hk).1
    rw [hd, Nat.min_zero] at this
    exact List.length_eq_zero.mp this
  refine ⟨?_, hgen s n, hempty _ _ (by decide) (by decide), hempty _ _ (by decide) (by decide),
    hempty _ _ (by decide) (by decide)⟩
  intro hn
  unfold TopWords
  rw [if_pos hn]

/-- Instance of `topWords_count` for the passes in the stored order of the
map, on a text with three distinct words. -/
theorem topWords_count_witness :
    ((-1 : Int) ≤ 0 → TopWords (fun _ m => m) "One two two three three three" (-1) = []) ∧
    ((0 : Int) < 2 →
      (TopWords (fun _ m => m) "One two two three three three" 2).length
        = min (2 : Int).toNat (lowerWords "One two two three three three").dedup.length ∧
      (TopWords (fun _ m => m) "One two two three three three" 2).Nodup ∧
      (∀ w ∈ TopWords (fun _ m => m) "One two two three three three" 2,
        w ∈ lowerWords "One two two three three three" ∧ ∀ c ∈ w.data, c.isLower = true) ∧
      ((lowerWords "One two two three three three").dedup.length ≤ (2 : Int).toNat →
        (TopWords (fun _ m => m) "One two two three three three" 2).Perm
          (lowerWords "One two two three three three").dedup)) :=
  ⟨(topWords_count (fun _ m => m) (fun _ m => List.Perm.refl m)
      "One two two three three three" (-1)).1,
    (topWords_count (fun _ m => m) (fun _ m => List.Perm.refl m)
      "One two two three three three" 2).2.1⟩

/-- C16: for positive `n` the words returned by `TopWords(s, n)` are in
non-increasing order of their number of occurrences among the lower-cased
matches, and a word of `s` that is not returned occurs at most as often as
each returned word, whatever the order of the passes over the map; on
`Going, going. Till, Till, till, Still, a a a a a a.` with `n = 4` the result
is `a`, `till`, `going`, `still`. -/
theorem topWords_ranked (order : Nat → List (String × Nat) → List (String × Nat))
    (horder : ∀ i m, (order i m).Perm m) (s : String) (n : Int) (hn : 0 < n) :
    (TopWords order s n).Pairwise
      (fun a b => (lowerWords s).count b ≤ (lowerWords s).count a) ∧
    (∀ w ∈ lowerWords s, w ∉ TopWords order s n →
      ∀ x ∈ TopWords order s n, (lowerWords s).count w ≤ (lowerWords s).count x) ∧
    TopWords order "Going, going. Till, Till, till, Still, a a a a a a." 4
      = ["a", "till", "going", "still"] := by
  refine ⟨?_, ?_, ?_⟩
  · obtain ⟨chosen, rest, hperm, hres, _, hpw, _⟩ := topWords_spec order horder s n hn
    obtain ⟨_, _, hcount⟩ := buildFrequency_spec s
    rw [hres]
    refine List.pairwise_map.mpr (List.Pairwise.imp_of_mem ?_ hpw)
    intro a b ha hb hab
    rw [← hcount a (hperm.mem_iff.mpr (List.mem_append_left _ ha)),
      ← hcount b (hperm.mem_iff.mpr (List.mem_append_left _ hb))]
    exact hab
  · obtain ⟨chosen, rest, hperm, hres, _, _, hrest⟩ := topWords_spec order horder s n hn
    obtain ⟨_, hkeys, hcount⟩ := buildFrequency_spec s
    intro w hw hnot x hx
    rw [hres] at hnot hx
    obtain ⟨a, ha, rfl⟩ := List.mem_map.mp hx
    obtain ⟨b, hb, rfl⟩ := List.mem_map.mp ((hkeys w).mpr hw)
    have hb' : b ∈ rest := by
      rcases List.mem_append.mp (hperm.mem_iff.mp hb) with h | h
      · exact absurd (List.mem_map_of_mem _ h) hnot
      · exact h
    rw [← hcount a (hperm.mem_iff.mpr (List.mem_append_left _ ha)), ← hcount b hb]
    exact hrest a ha b hb'
  · obtain ⟨chosen, rest, hperm, hres, hlen, hpw, _⟩ :=
      topWords_spec order horder "Going, going. Till, Till, till, Still, a a a a a a." 4
        (by decide)
    have hfreq : buildFrequency (findAllWords "Going, going. Till, Till, till, Still, a a a a a a.")
        = [("going", 2), ("till", 3), ("still", 1), ("a", 6)] := by decide
    rw [hfreq] at hperm hlen
    have hrest : rest = [] := by
      have := hperm.length_eq
      rw [List.length_append, hlen] at this
      exact List.length_eq_zero.mp (by simpa using this)
    rw [hrest, List.append_nil] at hperm
    have hall : ∀ c ∈ List.permutations' [("going", 2), ("till", 3), ("still", 1), ("a", 6)],
        c.Pairwise (fun a b => b.2 ≤ a.2) → c.map Prod.fst = ["a", "till", "going", "still"] := by
      decide
    rw [hres]
    exact hall chosen (List.mem_permutations'.mpr hperm.symm) hpw

/-- Instance of `topWords_ranked` for the passes in the reverse of the stored
order of the map. -/
theorem topWords_ranked_witness :
    (TopWords (fun _ m => m.reverse) "One two two three three three" 2).Pairwise
      (fun a b => (lowerWords "One two two three three three").count b
        ≤ (lowerWords "One two two three three three").count a) ∧
    (∀ w ∈ lowerWords "One two two three three three",
      w ∉ TopWords (fun _ m => m.reverse) "One two two three three three" 2 →
      ∀ x ∈ TopWords (fun _ m => m.reverse) "One two two three three three" 2,
        (lowerWords "One two two three three three").count w
          ≤ (lowerWords "One two two three three three").count x) ∧
    TopWords (fun _ m => m.reverse) "Going, going. Till, Till, till, Still, a a a a a a." 4
      = ["a", "till", "going", "still"] :=
  topWords_ranked (fun _ m => m.reverse) (fun _ m => List.reverse_perm m)
    "One two two three three three" 2 (by decide)

end topWords
